import Mathlib

/-!
Verification of the scheduler core (`src/components/scheduler.py`) of the
importly/scheduler repository against its natural-language specification.

The Python code is shallowly embedded:
* timestamps (`datetime`) are integers counting microseconds,
* dates are integers counting days (a date `d` spans the half-open range of
  instants `[d * usPerDay, (d+1) * usPerDay)`; `datetime.combine(d, time.min)`
  is `d * usPerDay` and `datetime.combine(d, time.max)` is
  `d * usPerDay + usPerDay - 1`, the day's last representable instant),
* `float` scores are modelled as rationals,
* the SQLAlchemy session is modelled as a list of task records in store order;
  a query is a filter over that list and a committed update rewrites the
  record with the matching primary key,
* the unbounded `while True` day-scanning loop of `slot_tasks` is given
  explicit fuel; a result `none` means the fuel was exhausted, i.e. the
  source loop has not terminated within that many days.
-/

namespace Scheduler

/-- A `timeInterval`: a pair (start, end) of timestamps in microseconds. -/
abbrev Ival := ℤ × ℤ

/-- Microseconds per minute (`timedelta(minutes=1)`). -/
def usPerMinute : ℤ := 60000000

/-- Microseconds per day. -/
def usPerDay : ℤ := 86400000000

/-- Membership of an instant in an interval, half-open at the right:
occupying `[s, e)` and `[e, f)` is not a conflict. -/
def memI (x : ℤ) (i : Ival) : Prop := i.1 ≤ x ∧ x < i.2

instance (x : ℤ) (i : Ival) : Decidable (memI x i) := by unfold memI; infer_instance

/-- Two intervals overlap when they share an instant (positive-length
intersection; merely touching endpoints do not overlap). -/
def overlaps (a b : Ival) : Prop := max a.1 b.1 < min a.2 b.2

instance (a b : Ival) : Decidable (overlaps a b) := by unfold overlaps; infer_instance

/-- Ordering of intervals by start, the sort key `lambda x: x[0]` used by
`merge_intervals`. -/
def startLE (a b : Ival) : Prop := a.1 ≤ b.1

instance : DecidableRel startLE := fun a b => inferInstanceAs (Decidable (a.1 ≤ b.1))

instance : IsTotal Ival startLE := ⟨fun a b => le_total a.1 b.1⟩

instance : IsTrans Ival startLE := ⟨fun _ _ _ h1 h2 => le_trans h1 h2⟩

/-- Strict separation of intervals: `a` ends strictly before `b` starts. -/
def sepLT (a b : Ival) : Prop := a.2 < b.1

/-- Separation together with start ordering; transitive, unlike `sepLT` alone. -/
def sepOrd (a b : Ival) : Prop := a.2 < b.1 ∧ a.1 ≤ b.1

instance : IsTrans Ival sepOrd :=
  ⟨fun a b c h1 h2 => ⟨lt_of_lt_of_le h1.1 h2.2, le_trans h1.2 h2.2⟩⟩

/-- The merging scan of `merge_intervals`: `last` is the interval currently
sitting at `merged[-1]`; an incoming interval whose start is `≤ last.2` is
merged into it (`merged[-1] = (last_start, max(last_end, curr_end))`),
otherwise `last` is emitted and the incoming interval becomes current. -/
def mergeAux : Ival → List Ival → List Ival
  | last, [] => [last]
  | last, c :: rest =>
    if c.1 ≤ last.2 then mergeAux (last.1, max last.2 c.2) rest
    else last :: mergeAux c rest

/-- `merge_intervals`: sort by interval start, then scan once merging
overlapping-or-touching intervals. Empty input yields empty output. -/
def merge_intervals (intervals : List Ival) : List Ival :=
  match List.insertionSort startLE intervals with
  | [] => []
  | x :: xs => mergeAux x xs

/-- The cursor walk of `find_free_slots` inside one availability window
`[cursor, wEnd)`: skip busy intervals ending at or before the cursor, stop at
the first busy interval starting at or after the window end (emitting the
final tail slot), otherwise emit the gap before the busy interval (when
positive) and advance the cursor, stopping when it reaches the window end. -/
def freeInWindow (cursor wEnd : ℤ) : List Ival → List Ival
  | [] => if cursor < wEnd then [(cursor, wEnd)] else []
  | (bs, be) :: rest =>
    if be ≤ cursor then freeInWindow cursor wEnd rest
    else if wEnd ≤ bs then (if cursor < wEnd then [(cursor, wEnd)] else [])
    else
      let emitted := if cursor < bs then [(cursor, min bs wEnd)] else ([] : List Ival)
      let c := max cursor be
      if wEnd ≤ c then emitted else emitted ++ freeInWindow c wEnd rest

/-- `find_free_slots`: subtract the merged busy intervals from each
availability window independently, in window order. -/
def find_free_slots (avail_windows busy_intervals : List Ival) : List Ival :=
  let merged := merge_intervals busy_intervals
  avail_windows.flatMap fun w => freeInWindow w.1 w.2 merged

/-- `models.TaskType`. -/
inductive TaskType where
  | EVENT : TaskType
  | TODO : TaskType
deriving DecidableEq

/-- `models.Status`. -/
inductive Status where
  | PENDING : Status
  | LATER : Status
  | NOT_STARTED : Status
  | DONE : Status
deriving DecidableEq

/-- A row of the `tasks` table (`models.Task`). Timestamps are microsecond
counts, `scheduled_for` is a day count, `estimate` and `duration` are in
minutes. -/
structure Task where
  id : ℤ
  title : String := ""
  description : String := ""
  type : TaskType
  status : Status := Status.NOT_STARTED
  priority : Option ℤ := none
  start_time : Option ℤ := none
  end_time : Option ℤ := none
  duration : Option ℤ := none
  deadline : Option ℤ := none
  estimate : Option ℤ := none
  scheduled_for : Option ℤ := none
  external_id : Option String := none
deriving DecidableEq

/-- `datetime.combine(d, time.min)` — midnight opening day `d`. -/
def day_start (d : ℤ) : ℤ := d * usPerDay

/-- `datetime.combine(d, time.max)` — the last representable instant of
day `d`, one microsecond before the next midnight. -/
def day_end (d : ℤ) : ℤ := d * usPerDay + (usPerDay - 1)

/-- `.date()` of a timestamp: floor division by the day length (Lean's `/`
on `ℤ` is Euclidean division, which is floor division for a positive
divisor, matching Python). -/
def dateOf (t : ℤ) : ℤ := t / usPerDay

/-- `date.weekday()` for a day count (day 0, 1970-01-01, was a Thursday,
weekday 3). Only its role as the availability-dictionary key matters here. -/
def weekdayOf (d : ℤ) : ℤ := (d + 3).emod 7

/-- `AvailabilityConfig`: weekday index ↦ list of (start, end) times of day
(microseconds past midnight); a total function models `dict.get(wd, [])`. -/
structure AvailabilityConfig where
  availability : ℤ → List (ℤ × ℤ)

/-- `AvailabilityConfig.get_windows_for_date`: stamp each configured
time-of-day pair onto the given date, preserving configured order. -/
def AvailabilityConfig.get_windows_for_date (cfg : AvailabilityConfig) (target_date : ℤ) :
    List Ival :=
  (cfg.availability (weekdayOf target_date)).map
    fun w => (day_start target_date + w.1, day_start target_date + w.2)

/-- The clipped busy interval a task contributes to a date, if any: the task
must have both times set and intersect `(day_start, day_end)`; the interval
is clipped to the day bounds. -/
def busyClipOf (t : Task) (d : ℤ) : Option Ival :=
  match t.start_time, t.end_time with
  | some s, some e =>
    if s < day_end d ∧ day_start d < e then some (max s (day_start d), min e (day_end d))
    else none
  | _, _ => none

/-- `find_busy_intervals`: clipped intervals of all tasks with placed times
intersecting the date, in the order the store returns the tasks. -/
def find_busy_intervals (tasks : List Task) (target_date : ℤ) : List Ival :=
  tasks.filterMap fun t => busyClipOf t target_date

/-- Python `x or 0` on an optional integer column value. -/
def pyOrInt (o : Option ℤ) : ℤ :=
  match o with
  | none => 0
  | some v => if v = 0 then 0 else v

/-- `getattr(task, field, None)` restricted by `isinstance(val, (int, float))`:
the numeric attributes a task exposes to the extensible scoring factors. -/
def numAttr (t : Task) (f : String) : Option ℚ :=
  if f = "priority" then t.priority.map fun v => (v : ℚ)
  else if f = "estimate" then t.estimate.map fun v => (v : ℚ)
  else if f = "duration" then t.duration.map fun v => (v : ℚ)
  else if f = "id" then some (t.id : ℚ)
  else none

/-- `compute_priority_score`: priority base term (weight default 1.0),
deadline urgency term (weight default 0.0, minutes clamped to ≥ 1), and the
extensible numeric factors. -/
def compute_priority_score (task : Task) (now : ℤ) (weights : List (String × ℚ)) : ℚ :=
  let base := (pyOrInt task.priority : ℚ) * ((weights.lookup "priority").getD 1)
  let urgency :=
    match task.deadline with
    | some d =>
      ((weights.lookup "deadline").getD 0) / max (((d - now : ℤ) : ℚ) / (usPerMinute : ℚ)) 1
    | none => 0
  let extras :=
    (weights.map fun p =>
      if p.1 = "priority" ∨ p.1 = "deadline" then 0
      else
        match numAttr task p.1 with
        | some v => v * p.2
        | none => 0).sum
  base + urgency + extras

/-- Descending-score ordering used by `sorted(todos, key=..., reverse=True)`. -/
def scoreDesc (weights : List (String × ℚ)) (now : ℤ) (a b : Task) : Prop :=
  compute_priority_score b now weights ≤ compute_priority_score a now weights

instance (weights : List (String × ℚ)) (now : ℤ) : DecidableRel (scoreDesc weights now) :=
  fun a b => inferInstanceAs
    (Decidable (compute_priority_score b now weights ≤ compute_priority_score a now weights))

/-- The reset step: clear `scheduled_for`, `start_time`, `end_time` on every
TODO task. -/
def resetTodos (tasks : List Task) : List Task :=
  tasks.map fun t =>
    if t.type = TaskType.TODO then
      { t with scheduled_for := none, start_time := none, end_time := none }
    else t

/-- Commit a placement: set the three scheduling fields on the task with the
given primary key (`scheduled_for` is the date of the start). -/
def applyPlacement (tasks : List Task) (i : ℤ) (c : Ival) : List Task :=
  tasks.map fun t =>
    if t.id = i then
      { t with start_time := some c.1, end_time := some c.2,
               scheduled_for := some (dateOf c.1) }
    else t

/-- `if ddl and end_candidate > ddl`. -/
def ddlViolated (ddl : Option ℤ) (en : ℤ) : Bool :=
  match ddl with
  | some d => decide (d < en)
  | none => false

/-- The free-slot loop of Phase 1 for one day: the candidate start is
`max(slot_start, now)`, the candidate end is start + estimate; accept the
first slot whose candidate meets the deadline and fits in the slot. -/
def findSlotInDay (now est : ℤ) (ddl : Option ℤ) : List Ival → Option Ival
  | [] => none
  | s :: rest =>
    let st := max s.1 now
    let en := st + est * usPerMinute
    if ddlViolated ddl en then findSlotInDay now est ddl rest
    else if en ≤ s.2 then some (st, en)
    else findSlotInDay now est ddl rest

/-- Availability windows used on day offset `k`: today's windows are trimmed
to start no earlier than `now`, discarding those that end at or before `now`. -/
def dayWindows (cfg : AvailabilityConfig) (now : ℤ) (k : ℕ) : List Ival :=
  let td := dateOf (now + k * usPerDay)
  let ws := cfg.get_windows_for_date td
  if k = 0 then (ws.filter fun w => decide (now < w.2)).map fun w => (max w.1 now, w.2)
  else ws

/-- `if ddl and target_date > ddl.date()`. -/
def pastDeadlineDate (ddl : Option ℤ) (td : ℤ) : Bool :=
  match ddl with
  | some d => decide (dateOf d < td)
  | none => false

/-- The `while True` day scan of Phase 1, with explicit fuel. `none` means
the fuel ran out (the source loop would still be running); `some none` means
the scan stopped past the deadline date (the task overflows); `some (some c)`
means the task was placed on candidate interval `c`. -/
def phase1Scan (state : List Task) (cfg : AvailabilityConfig) (now est : ℤ)
    (ddl : Option ℤ) : ℕ → ℕ → Option (Option Ival)
  | 0, _ => none
  | fuel + 1, k =>
    let td := dateOf (now + k * usPerDay)
    if pastDeadlineDate ddl td then some none
    else
      let ws := dayWindows cfg now k
      if ws.isEmpty then phase1Scan state cfg now est ddl fuel (k + 1)
      else
        match findSlotInDay now est ddl
            (find_free_slots ws (find_busy_intervals state td)) with
        | some c => some (some c)
        | none => phase1Scan state cfg now est ddl fuel (k + 1)

/-- Phase 1 treatment of a single task: an expired deadline goes straight to
overflow, otherwise the day scan runs. -/
def tryScheduleTask (fuel : ℕ) (state : List Task) (cfg : AvailabilityConfig)
    (now : ℤ) (task : Task) : Option (Option Ival) :=
  let est := pyOrInt task.estimate
  match task.deadline with
  | some d => if d ≤ now then some none else phase1Scan state cfg now est (some d) fuel 0
  | none => phase1Scan state cfg now est none fuel 0

/-- Phase 1 over the rank-ordered pending list, threading the committed store
state and accumulating the overflow list. -/
def phase1Run (fuel : ℕ) (cfg : AvailabilityConfig) (now : ℤ) :
    List Task → List Task → List Task → Option (List Task × List Task)
  | [], state, ovf => some (state, ovf)
  | task :: rest, state, ovf =>
    match tryScheduleTask fuel state cfg now task with
    | none => none
    | some none => phase1Run fuel cfg now rest state (ovf ++ [task])
    | some (some c) => phase1Run fuel cfg now rest (applyPlacement state task.id c) ovf

/-- Phase 2's busy set: clipped intervals of EVENT tasks intersecting today. -/
def eventBusyToday (tasks : List Task) (today : ℤ) : List Ival :=
  tasks.filterMap fun t =>
    if t.type = TaskType.EVENT then busyClipOf t today else none

/-- Phase 2: place each overflow task back-to-back from the pointer. -/
def phase2Run : List Task → List Task → ℤ → List Task
  | state, [], _ => state
  | state, task :: rest, pointer =>
    let en := pointer + pyOrInt task.estimate * usPerMinute
    phase2Run (applyPlacement state task.id (pointer, en)) rest en

/-- `slot_tasks`, also exposing which tasks overflowed to Phase 2: reset all
TODO schedules, rank by descending score, run Phase 1, then queue the
overflow immediately after today's last merged EVENT interval (or `now`). -/
def slot_tasksWithOverflow (fuel : ℕ) (tasks : List Task) (cfg : AvailabilityConfig)
    (weights : List (String × ℚ)) (now : ℤ) : Option (List Task × List Task) :=
  let todos := tasks.filter fun t => decide (t.type = TaskType.TODO)
  let state0 := resetTodos tasks
  if todos.isEmpty then some (state0, [])
  else
    let pending :=
      List.insertionSort (scoreDesc weights now)
        (state0.filter fun t => decide (t.type = TaskType.TODO))
    match phase1Run fuel cfg now pending state0 [] with
    | none => none
    | some (state1, ovf) =>
      if ovf.isEmpty then some (state1, [])
      else
        let merged := merge_intervals (eventBusyToday state1 (dateOf now))
        let pointer :=
          match merged.getLast? with
          | some m => m.2
          | none => now
        some (phase2Run state1 ovf pointer, ovf)

/-- `slot_tasks`: the committed store state after a full run (`none` when the
fuel for Phase 1's unbounded day scan ran out). -/
def slot_tasks (fuel : ℕ) (tasks : List Task) (cfg : AvailabilityConfig)
    (weights : List (String × ℚ)) (now : ℤ) : Option (List Task) :=
  (slot_tasksWithOverflow fuel tasks cfg weights now).map Prod.fst

/-- Spec-side acceptance test for a free slot (§4.6 step 3): candidate start
is the later of slot start and `now`, candidate end is start + estimate; the
candidate must fit in the slot and meet the deadline when one exists. -/
def spec_accepts (now est : ℤ) (ddl : Option ℤ) (s : Ival) : Bool :=
  let st := max s.1 now
  let en := st + est * usPerMinute
  decide (en ≤ s.2) &&
    (match ddl with
     | some d => decide (en ≤ d)
     | none => true)

/-- Modelled from the spec: "The first accepted candidate, in slot order, is
the placement" — the first free slot in list order passing `spec_accepts`,
mapped to its candidate interval. -/
def spec_first_fit (slots : List Ival) (now est : ℤ) (ddl : Option ℤ) : Option Ival :=
  (slots.find? (spec_accepts now est ddl)).map
    fun s => (max s.1 now, max s.1 now + est * usPerMinute)

/-- Spec-side candidate for day offset `k`: first accepted candidate among
that day's free slots. -/
def spec_day_candidate (state : List Task) (cfg : AvailabilityConfig) (now est : ℤ)
    (ddl : Option ℤ) (k : ℕ) : Option Ival :=
  spec_first_fit
    (find_free_slots (dayWindows cfg now k)
      (find_busy_intervals state (dateOf (now + k * usPerDay))))
    now est ddl

/-- Modelled from the spec: the first accepted candidate in slot order within
a day and then in ascending day order, scanning `fuel` days from offset `k`. -/
def spec_placement (state : List Task) (cfg : AvailabilityConfig) (now est : ℤ)
    (ddl : Option ℤ) : ℕ → ℕ → Option Ival
  | 0, _ => none
  | fuel + 1, k =>
    match spec_day_candidate state cfg now est ddl k with
    | some c => some c
    | none => spec_placement state cfg now est ddl fuel (k + 1)

/-- The committed interval of a task, when both times are set. -/
def placedIval (t : Task) : Option Ival :=
  match t.start_time, t.end_time with
  | some s, some e => some (s, e)
  | _, _ => none

/-- Two task records do not conflict: whenever both carry committed
intervals, the intervals do not overlap. -/
def noOverlapT (a b : Task) : Prop :=
  match placedIval a, placedIval b with
  | some ia, some ib => ¬ overlaps ia ib
  | _, _ => True

instance (a b : Task) : Decidable (noOverlapT a b) := by
  unfold noOverlapT
  rcases placedIval a with _ | ia <;> rcases placedIval b with _ | ib <;>
    simp <;> infer_instance

/-- Store-order comparability of start times: whenever both tasks carry a
start time, the first starts no later than the second. -/
def startOrderedT (a b : Task) : Prop :=
  match a.start_time, b.start_time with
  | some sa, some sb => sa ≤ sb
  | _, _ => True

instance (a b : Task) : Decidable (startOrderedT a b) := by
  unfold startOrderedT
  rcases a.start_time with _ | sa <;> rcases b.start_time with _ | sb <;>
    simp <;> infer_instance

/-- A valid availability configuration (§7: windows with `end ≤ start` are
rejected before reaching the engine): every configured time-of-day pair lies
within the day and has its end after its start. -/
def ValidConfig (cfg : AvailabilityConfig) : Prop :=
  ∀ wd : ℤ, ∀ p ∈ cfg.availability wd, 0 ≤ p.1 ∧ p.1 < p.2 ∧ p.2 ≤ usPerDay - 1

/-- The frame a scheduling run must preserve on a task record: identity,
kind, and every caller-owned field are unchanged, and for an EVENT the
scheduling fields are unchanged as well. -/
def frameEq (t r : Task) : Prop :=
  r.id = t.id ∧ r.title = t.title ∧ r.description = t.description ∧
  r.type = t.type ∧ r.status = t.status ∧ r.priority = t.priority ∧
  r.duration = t.duration ∧ r.deadline = t.deadline ∧ r.estimate = t.estimate ∧
  r.external_id = t.external_id ∧
  (t.type = TaskType.EVENT →
    r.start_time = t.start_time ∧ r.end_time = t.end_time ∧
    r.scheduled_for = t.scheduled_for)

/-- Every TODO record carrying committed times spans exactly its estimate in
minutes. -/
def AllWellSized (l : List Task) : Prop :=
  ∀ t ∈ l, t.type = TaskType.TODO → ∀ s e, t.start_time = some s → t.end_time = some e →
    e - s = pyOrInt t.estimate * usPerMinute

theorem overlaps_iff_exists_mem (a b : Ival) : overlaps a b ↔ ∃ x, memI x a ∧ memI x b := by
  simp only [overlaps, memI]
  constructor
  · intro h
    exact ⟨max a.1 b.1, by omega, by omega⟩
  · rintro ⟨x, hxa, hxb⟩
    omega

theorem overlaps_comm (a b : Ival) : overlaps a b ↔ overlaps b a := by
  simp only [overlaps, max_comm, min_comm]

/-- Overlap is monotone under enlarging one side. -/
theorem overlaps_mono_left {a a' b : Ival} (h1 : a'.1 ≤ a.1) (h2 : a.2 ≤ a'.2)
    (h : overlaps a b) : overlaps a' b := by
  simp only [overlaps] at *; omega

theorem mergeAux_ne_nil (last : Ival) (rest : List Ival) : mergeAux last rest ≠ [] := by
  induction rest generalizing last with
  | nil => simp [mergeAux]
  | cons c rest ih =>
    simp only [mergeAux]
    split
    · exact ih _
    · simp

/-- The head of the merging scan's output starts where `last` starts and ends
at or after `last.2`. -/
theorem mergeAux_head (last : Ival) (rest : List Ival) :
    ∃ e tl, mergeAux last rest = (last.1, e) :: tl ∧ last.2 ≤ e := by
  induction rest generalizing last with
  | nil => exact ⟨last.2, [], rfl, le_refl _⟩
  | cons c rest ih =>
    simp only [mergeAux]
    split
    · obtain ⟨e, tl, heq, hle⟩ := ih (last.1, max last.2 c.2)
      exact ⟨e, tl, heq, le_trans (le_max_left _ _) hle⟩
    · exact ⟨last.2, mergeAux c rest, rfl, le_refl _⟩

/-- Every start in the scan's output is a start of an input interval. -/
theorem mergeAux_start_mem (last : Ival) (rest : List Ival) :
    ∀ m ∈ mergeAux last rest, m.1 = last.1 ∨ ∃ c ∈ rest, m.1 = c.1 := by
  induction rest generalizing last with
  | nil => intro m hm; simp [mergeAux] at hm; simp [hm]
  | cons c rest ih =>
    intro m hm
    simp only [mergeAux] at hm
    split at hm
    · rcases ih _ m hm with h | ⟨c', hc', h⟩
      · exact Or.inl h
      · exact Or.inr ⟨c', List.mem_cons_of_mem _ hc', h⟩
    · rcases List.mem_cons.mp hm with rfl | hm'
      · exact Or.inl rfl
      · rcases ih _ m hm' with h | ⟨c', hc', h⟩
        · exact Or.inr ⟨c, List.mem_cons_self _ _, h⟩
        · exact Or.inr ⟨c', List.mem_cons_of_mem _ hc', h⟩

theorem mergeAux_sorted (last : Ival) (rest : List Ival)
    (h : List.Sorted startLE (last :: rest)) :
    List.Sorted startLE (mergeAux last rest) := by
  induction rest generalizing last with
  | nil => simp [mergeAux, List.Sorted]
  | cons c rest ih =>
    simp only [mergeAux]
    rcases List.sorted_cons.mp h with ⟨hlast, hrest⟩
    split
    · refine ih (last.1, max last.2 c.2) (List.sorted_cons.mpr ⟨?_, (List.sorted_cons.mp hrest).2⟩)
      intro b hb
      exact le_trans (hlast c (List.mem_cons_self _ _)) ((List.sorted_cons.mp hrest).1 b hb)
    · refine List.sorted_cons.mpr ⟨?_, ih c hrest⟩
      intro b hb
      rcases mergeAux_start_mem c rest b hb with h1 | ⟨c', hc', h1⟩
      · show last.1 ≤ b.1
        rw [h1]; exact hlast c (List.mem_cons_self _ _)
      · show last.1 ≤ b.1
        rw [h1]; exact hlast c' (List.mem_cons_of_mem _ hc')

/-- Consecutive output intervals of the merging scan are strictly separated:
each gap is strictly positive (touching inputs were merged, not kept). -/
theorem mergeAux_chain_sep (last : Ival) (rest : List Ival) :
    List.Chain' sepLT (mergeAux last rest) := by
  induction rest generalizing last with
  | nil => simp [mergeAux]
  | cons c rest ih =>
    simp only [mergeAux]
    split
    · exact ih _
    · obtain ⟨e, tl, heq, _⟩ := mergeAux_head c rest
      rw [heq]
      refine List.Chain'.cons ?_ (heq ▸ ih c)
      show last.2 < c.1
      omega

/-- Union preservation of the merging scan: an instant is covered by the
output iff it is covered by `last` or by some interval of `rest`
(hypothesis: the input scan list is sorted by start). -/
theorem mergeAux_union (last : Ival) (rest : List Ival)
    (h : List.Sorted startLE (last :: rest)) (x : ℤ) :
    (∃ m ∈ mergeAux last rest, memI x m) ↔ memI x last ∨ ∃ c ∈ rest, memI x c := by
  induction rest generalizing last with
  | nil => simp [mergeAux]
  | cons c rest ih =>
    rcases List.sorted_cons.mp h with ⟨hlast, hrest⟩
    simp only [mergeAux]
    split
    · rename_i hcle
      have hsorted : List.Sorted startLE ((last.1, max last.2 c.2) :: rest) := by
        refine List.sorted_cons.mpr ⟨?_, (List.sorted_cons.mp hrest).2⟩
        intro b hb
        exact le_trans (hlast c (List.mem_cons_self _ _)) ((List.sorted_cons.mp hrest).1 b hb)
      rw [ih _ hsorted]
      have hcs : last.1 ≤ c.1 := hlast c (List.mem_cons_self _ _)
      constructor
      · rintro (hm | ⟨c', hc', hm⟩)
        · simp only [memI] at hm ⊢
          simp only [List.mem_cons]
          rcases lt_or_le x last.2 with h1 | h1
          · exact Or.inl ⟨hm.1, by omega⟩
          · exact Or.inr ⟨c, Or.inl rfl, by constructor <;> omega⟩
        · exact Or.inr ⟨c', List.mem_cons_of_mem _ hc', hm⟩
      · rintro (hm | ⟨c', hc', hm⟩)
        · exact Or.inl (by simp only [memI] at hm ⊢; omega)
        · rcases List.mem_cons.mp hc' with rfl | hc''
          · exact Or.inl (by simp only [memI] at hm ⊢; omega)
          · exact Or.inr ⟨c', hc'', hm⟩
    · rw [List.forall_mem_cons] at *
      constructor
      · rintro ⟨m, hm, hxm⟩
        rcases List.mem_cons.mp hm with rfl | hm'
        · exact Or.inl hxm
        · rcases (ih c hrest).mp ⟨m, hm', hxm⟩ with h1 | ⟨c', hc', h1⟩
          · exact Or.inr ⟨c, List.mem_cons_self _ _, h1⟩
          · exact Or.inr ⟨c', List.mem_cons_of_mem _ hc', h1⟩
      · rintro (hxm | ⟨c', hc', hxm⟩)
        · exact ⟨last, List.mem_cons_self _ _, hxm⟩
        · rcases List.mem_cons.mp hc' with rfl | hc''
          · obtain ⟨m, hm, hxm'⟩ := (ih c' hrest).mpr (Or.inl hxm)
            exact ⟨m, List.mem_cons_of_mem _ hm, hxm'⟩
          · obtain ⟨m, hm, hxm'⟩ := (ih c hrest).mpr (Or.inr ⟨c', hc'', hxm⟩)
            exact ⟨m, List.mem_cons_of_mem _ hm, hxm'⟩

/-- The merging scan leaves an already separated list unchanged. -/
theorem mergeAux_of_sep (last : Ival) (rest : List Ival)
    (h : List.Chain' sepLT (last :: rest)) : mergeAux last rest = last :: rest := by
  induction rest generalizing last with
  | nil => rfl
  | cons c rest ih =>
    have h1 : last.2 < c.1 := (List.chain'_cons.mp h).1
    have h2 : ¬ c.1 ≤ last.2 := not_le.mpr h1
    simp only [mergeAux, if_neg h2]
    rw [ih c (List.chain'_cons.mp h).2]

theorem merge_intervals_sorted (l : List Ival) :
    List.Sorted startLE (merge_intervals l) := by
  unfold merge_intervals
  rcases h : List.insertionSort startLE l with _ | ⟨x, xs⟩
  · simp
  · exact mergeAux_sorted x xs (h ▸ List.sorted_insertionSort startLE l)

theorem merge_intervals_chain_sep (l : List Ival) :
    List.Chain' sepLT (merge_intervals l) := by
  unfold merge_intervals
  rcases List.insertionSort startLE l with _ | ⟨x, xs⟩
  · simp
  · exact mergeAux_chain_sep x xs

/-- All pairs of distinct members of the merged output, in output order, are
strictly separated. -/
theorem merge_intervals_pairwise_sep (l : List Ival) :
    List.Pairwise sepLT (merge_intervals l) := by
  have hs := merge_intervals_sorted l
  have hc := merge_intervals_chain_sep l
  have hcomb : List.Chain' sepOrd (merge_intervals l) := by
    have hcs : List.Chain' startLE (merge_intervals l) := hs.chain'
    generalize merge_intervals l = m at hc hcs
    induction m with
    | nil => simp
    | cons a t iht =>
      cases t with
      | nil => simp
      | cons b t' =>
        rw [List.chain'_cons] at hc hcs ⊢
        exact ⟨⟨hc.1, hcs.1⟩, iht hc.2 hcs.2⟩
  exact (List.chain'_iff_pairwise.mp hcomb).imp (fun h => h.1)

theorem merge_intervals_union (l : List Ival) (x : ℤ) :
    (∃ m ∈ merge_intervals l, memI x m) ↔ ∃ i ∈ l, memI x i := by
  unfold merge_intervals
  rcases h : List.insertionSort startLE l with _ | ⟨y, ys⟩
  · have : l = [] := by
      have := List.perm_insertionSort startLE l
      rw [h] at this
      exact (List.Perm.nil_eq this).symm
    simp [this]
  · have hperm := List.perm_insertionSort startLE l
    rw [h] at hperm
    have hmem : ∀ i : Ival, i ∈ l ↔ i ∈ y :: ys := fun i => (hperm.mem_iff).symm
    rw [mergeAux_union y ys (h ▸ List.sorted_insertionSort startLE l) x]
    constructor
    · rintro (hm | ⟨c, hc, hm⟩)
      · exact ⟨y, (hmem y).mpr (List.mem_cons_self _ _), hm⟩
      · exact ⟨c, (hmem c).mpr (List.mem_cons_of_mem _ hc), hm⟩
    · rintro ⟨i, hi, hm⟩
      rcases List.mem_cons.mp ((hmem i).mp hi) with rfl | hi'
      · exact Or.inl hm
      · exact Or.inr ⟨i, hi', hm⟩

theorem merge_intervals_idem (l : List Ival) :
    merge_intervals (merge_intervals l) = merge_intervals l := by
  have hs := merge_intervals_sorted l
  have hc := merge_intervals_chain_sep l
  conv_lhs => rw [merge_intervals, hs.insertionSort_eq]
  rcases h : merge_intervals l with _ | ⟨x, xs⟩
  · rfl
  · rw [h] at hc
    exact mergeAux_of_sep x xs hc

/-- Members of the merged output of well-formed intervals are well-formed. -/
theorem mergeAux_wf (last : Ival) (rest : List Ival) (hlast : last.1 < last.2)
    (hrest : ∀ i ∈ rest, i.1 < i.2) :
    ∀ m ∈ mergeAux last rest, m.1 < m.2 := by
  induction rest generalizing last with
  | nil => intro m hm; simp [mergeAux] at hm; simpa [hm] using hlast
  | cons c rest ih =>
    intro m hm
    simp only [mergeAux] at hm
    split at hm
    · refine ih (last.1, max last.2 c.2) ?_ (fun i hi => hrest i (List.mem_cons_of_mem _ hi)) m hm
      have := hrest c (List.mem_cons_self _ _)
      show last.1 < max last.2 c.2
      omega
    · rcases List.mem_cons.mp hm with rfl | hm'
      · exact hlast
      · exact ih c (hrest c (List.mem_cons_self _ _))
          (fun i hi => hrest i (List.mem_cons_of_mem _ hi)) m hm'

theorem merge_intervals_wf (l : List Ival) (h : ∀ i ∈ l, i.1 < i.2) :
    ∀ m ∈ merge_intervals l, m.1 < m.2 := by
  unfold merge_intervals
  rcases heq : List.insertionSort startLE l with _ | ⟨x, xs⟩
  · simp
  · have hperm := List.perm_insertionSort startLE l
    rw [heq] at hperm
    have hall : ∀ i ∈ x :: xs, i.1 < i.2 := fun i hi => h i (hperm.mem_iff.mp hi)
    exact mergeAux_wf x xs (hall x (List.mem_cons_self _ _))
      (fun i hi => hall i (List.mem_cons_of_mem _ hi))

/-- Claim C4: for every finite list of intervals `S` (possibly empty,
unsorted, overlapping or touching), `merge_intervals S` is sorted by start,
its members are pairwise strictly separated (each gap positive, so touching
inputs are merged rather than kept adjacent), its union of instants equals
the union of `S`, and `merge_intervals` is idempotent. -/
theorem merge_intervals_canonical (S : List Ival) :
    List.Sorted startLE (merge_intervals S) ∧
    List.Pairwise sepLT (merge_intervals S) ∧
    (∀ x : ℤ, (∃ m ∈ merge_intervals S, memI x m) ↔ ∃ i ∈ S, memI x i) ∧
    merge_intervals (merge_intervals S) = merge_intervals S :=
  ⟨merge_intervals_sorted S, merge_intervals_pairwise_sep S,
    merge_intervals_union S, merge_intervals_idem S⟩

theorem overlaps_mk (a1 a2 b1 b2 : ℤ) :
    overlaps (a1, a2) (b1, b2) ↔ max a1 b1 < min a2 b2 := Iff.rfl

/-- Every slot produced inside a window is nonempty and lies inside
`[cursor, wEnd)`. -/
theorem freeInWindow_bounds (busy : List Ival) :
    ∀ cursor wEnd, ∀ s ∈ freeInWindow cursor wEnd busy,
      cursor ≤ s.1 ∧ s.1 < s.2 ∧ s.2 ≤ wEnd := by
  induction busy with
  | nil =>
    intro cursor wEnd s hs
    simp only [freeInWindow] at hs
    split at hs <;> simp_all <;> omega
  | cons b rest ih =>
    intro cursor wEnd s hs
    obtain ⟨bs, be⟩ := b
    simp only [freeInWindow] at hs
    split at hs
    · exact ih cursor wEnd s hs
    · split at hs
      · split at hs <;> simp_all <;> omega
      · split at hs
        · split at hs <;> simp_all <;> omega
        · rcases List.mem_append.mp hs with hmem | hmem
          · split at hmem <;> simp_all <;> omega
          · have := ih (max cursor be) wEnd s hmem
            omega

/-- No produced slot overlaps any busy interval of the scanned list
(hypothesis: the busy list is sorted by start, as `merge_intervals`
guarantees). -/
theorem freeInWindow_no_overlap (busy : List Ival) :
    ∀ cursor wEnd, List.Pairwise startLE busy →
      ∀ s ∈ freeInWindow cursor wEnd busy, ∀ b ∈ busy, ¬ overlaps s b := by
  induction busy with
  | nil => intro _ _ _ _ _ b hb; simp at hb
  | cons b rest ih =>
    intro cursor wEnd hsort s hs i hi
    obtain ⟨bs, be⟩ := b
    obtain ⟨i1, i2⟩ := i
    rcases List.pairwise_cons.mp hsort with ⟨hhead, htail⟩
    simp only [freeInWindow] at hs
    split at hs
    · -- busy head ends at or before the cursor: skipped
      rename_i hbec
      rcases List.mem_cons.mp hi with heq | hi'
      · obtain ⟨s1, s2⟩ := s
        have hb := freeInWindow_bounds rest cursor wEnd _ hs
        obtain ⟨rfl, rfl⟩ : i1 = bs ∧ i2 = be := by
          simpa [Prod.ext_iff] using heq
        simp only [overlaps_mk]
        simp only at hb
        omega
      · exact ih cursor wEnd htail s hs _ hi'
    · split at hs
      · -- busy head starts at or after the window end: stop
        rename_i hbe hwbs
        have hsw : s = (cursor, wEnd) := by
          split at hs <;> simp_all
        subst hsw
        rcases List.mem_cons.mp hi with heq | hi'
        · obtain ⟨rfl, rfl⟩ : i1 = bs ∧ i2 = be := by
            simpa [Prod.ext_iff] using heq
          simp only [overlaps_mk]
          omega
        · have hle : bs ≤ i1 := hhead _ hi'
          simp only [overlaps_mk]
          omega
      · rename_i hbe hwbs
        split at hs
        · -- cursor reached the window end after advancing: only the gap slot
          rename_i hstop
          have hcbs : cursor < bs := by
            by_contra hc
            rw [if_neg hc] at hs
            simp at hs
          have hsw : s = (cursor, min bs wEnd) := by
            rw [if_pos hcbs] at hs
            simpa using hs
          subst hsw
          rcases List.mem_cons.mp hi with heq | hi'
          · obtain ⟨rfl, rfl⟩ : i1 = bs ∧ i2 = be := by
              simpa [Prod.ext_iff] using heq
            simp only [overlaps_mk]
            omega
          · have hle : bs ≤ i1 := hhead _ hi'
            simp only [overlaps_mk]
            omega
        · rcases List.mem_append.mp hs with hmem | hmem
          · -- the emitted gap slot ends at the busy head's start
            have hcbs : cursor < bs := by
              by_contra hc
              rw [if_neg hc] at hmem
              simp at hmem
            have hsw : s = (cursor, min bs wEnd) := by
              rw [if_pos hcbs] at hmem
              simpa using hmem
            subst hsw
            rcases List.mem_cons.mp hi with heq | hi'
            · obtain ⟨rfl, rfl⟩ : i1 = bs ∧ i2 = be := by
                simpa [Prod.ext_iff] using heq
              simp only [overlaps_mk]
              omega
            · have hle : bs ≤ i1 := hhead _ hi'
              simp only [overlaps_mk]
              omega
          · -- slots produced after advancing the cursor past the busy head
            rcases List.mem_cons.mp hi with heq | hi'
            · obtain ⟨s1, s2⟩ := s
              have hb := freeInWindow_bounds rest (max cursor be) wEnd _ hmem
              obtain ⟨rfl, rfl⟩ : i1 = bs ∧ i2 = be := by
                simpa [Prod.ext_iff] using heq
              simp only [overlaps_mk]
              simp only at hb
              omega
            · exact ih (max cursor be) wEnd htail s hmem _ hi'

/-- Slots produced inside one window are ordered and disjoint (they touch at
most; hypothesis: busy members are well-formed). -/
theorem freeInWindow_pairwise (busy : List Ival) :
    ∀ cursor wEnd, (∀ b ∈ busy, b.1 < b.2) →
      List.Pairwise (fun a b : Ival => a.2 ≤ b.1) (freeInWindow cursor wEnd busy) := by
  induction busy with
  | nil =>
    intro cursor wEnd _
    simp only [freeInWindow]
    split <;> simp
  | cons b rest ih =>
    intro cursor wEnd hwf
    obtain ⟨bs, be⟩ := b
    have hwf_head : bs < be := hwf (bs, be) (List.mem_cons_self _ _)
    have hwf_tail : ∀ i ∈ rest, i.1 < i.2 := fun i hi => hwf i (List.mem_cons_of_mem _ hi)
    simp only [freeInWindow]
    split
    · exact ih cursor wEnd hwf_tail
    · split
      · split <;> simp
      · split
        · split <;> simp
        · refine List.pairwise_append.mpr ⟨?_, ih (max cursor be) wEnd hwf_tail, ?_⟩
          · split <;> simp
          · intro a ha s hs
            have hb := freeInWindow_bounds rest (max cursor be) wEnd s hs
            have ha' : a = (cursor, min bs wEnd) := by
              split at ha <;> simp_all
            subst ha'
            simp only
            omega

/-- Claim C5 (amended): if the availability windows are well-formed, sorted
and mutually non-overlapping, and the busy intervals are well-formed, then
every slot returned by `find_free_slots` lies within exactly one window,
overlaps no interval of `merge_intervals busy`, and the returned slots are
nonempty, ordered by start, and mutually disjoint. -/
theorem find_free_slots_spec (W B : List Ival)
    (hWwf : ∀ w ∈ W, w.1 < w.2)
    (hWsep : List.Pairwise (fun v w : Ival => v.2 ≤ w.1) W)
    (hBwf : ∀ b ∈ B, b.1 < b.2) :
    (∀ s ∈ find_free_slots W B,
        ∃ w ∈ W, (w.1 ≤ s.1 ∧ s.2 ≤ w.2) ∧
          ∀ w' ∈ W, (w'.1 ≤ s.1 ∧ s.2 ≤ w'.2) → w' = w) ∧
    (∀ s ∈ find_free_slots W B, ∀ m ∈ merge_intervals B, ¬ overlaps s m) ∧
    (∀ s ∈ find_free_slots W B, s.1 < s.2) ∧
    List.Pairwise (fun a b : Ival => a.2 ≤ b.1) (find_free_slots W B) := by
  have hmerged_sorted : List.Pairwise startLE (merge_intervals B) := merge_intervals_sorted B
  have hmerged_wf : ∀ m ∈ merge_intervals B, m.1 < m.2 := merge_intervals_wf B hBwf
  have hmem : ∀ s ∈ find_free_slots W B, ∃ w ∈ W, s ∈ freeInWindow w.1 w.2 (merge_intervals B) := by
    intro s hs
    simpa [find_free_slots] using hs
  refine ⟨?_, ?_, ?_, ?_⟩
  · intro s hs
    obtain ⟨w, hw, hsw⟩ := hmem s hs
    have hb := freeInWindow_bounds _ _ _ s hsw
    refine ⟨w, hw, ⟨hb.1, hb.2.2⟩, ?_⟩
    intro w' hw' hsub
    by_contra hne
    -- two distinct windows both containing the nonempty slot would overlap
    have hsym : List.Pairwise (fun v w : Ival => v.2 ≤ w.1 ∨ w.2 ≤ v.1) W :=
      hWsep.imp (fun h => Or.inl h)
    have hor : w'.2 ≤ w.1 ∨ w.2 ≤ w'.1 :=
      List.Pairwise.forall (fun _ _ h => h.symm) hsym hw' hw hne
    rcases hor with h | h
    · omega
    · omega
  · intro s hs m hm
    obtain ⟨w, _, hsw⟩ := hmem s hs
    exact freeInWindow_no_overlap _ _ _ hmerged_sorted s hsw m hm
  · intro s hs
    obtain ⟨w, _, hsw⟩ := hmem s hs
    exact (freeInWindow_bounds _ _ _ s hsw).2.1
  · clear hmem
    unfold find_free_slots
    simp only
    induction W with
    | nil => simp
    | cons w ws ihW =>
      rcases List.pairwise_cons.mp hWsep with ⟨hhead, htail⟩
      simp only [List.flatMap_cons]
      refine List.pairwise_append.mpr
        ⟨freeInWindow_pairwise _ _ _ hmerged_wf,
         ihW (fun u hu => hWwf u (List.mem_cons_of_mem _ hu)) htail, ?_⟩
      intro a ha b hb
      have hba := freeInWindow_bounds (merge_intervals B) w.1 w.2 a ha
      obtain ⟨w1, w2, hw', hbw⟩ : ∃ u v, (u, v) ∈ ws ∧ b ∈ freeInWindow u v (merge_intervals B) := by
        simpa using hb
      have hbb := freeInWindow_bounds (merge_intervals B) w1 w2 b hbw
      have hsep : w.2 ≤ (w1, w2).1 := hhead (w1, w2) hw'
      simp only at hsep
      omega


/-! ## Busy-interval resolver (claim C3) -/

theorem busyClipOf_some {t : Task} {d : ℤ} {i : Ival} (h : busyClipOf t d = some i) :
    ∃ s e, t.start_time = some s ∧ t.end_time = some e ∧
      s < day_end d ∧ day_start d < e ∧ i = (max s (day_start d), min e (day_end d)) := by
  unfold busyClipOf at h
  rcases hs : t.start_time with _ | s <;> rcases he : t.end_time with _ | e <;>
    rw [hs, he] at h <;> simp at h
  rcases h with ⟨⟨h1, h2⟩, h3⟩
  exact ⟨s, e, rfl, rfl, h1, h2, h3.symm⟩

/-- Claim C3 (counterexample): `find_busy_intervals` preserves store order and
does not sort; a store returning the later task first yields an unsorted
result. Here day 0 holds an event 10:00–11:00 listed before one 8:00–9:00. -/
theorem find_busy_intervals_not_sorted :
    find_busy_intervals
      [{ id := 1, type := TaskType.EVENT,
         start_time := some 36000000000, end_time := some 39600000000 },
       { id := 2, type := TaskType.EVENT,
         start_time := some 28800000000, end_time := some 32400000000 }] 0 =
      [(36000000000, 39600000000), (28800000000, 32400000000)] ∧
    ¬ List.Sorted startLE
      (find_busy_intervals
        [{ id := 1, type := TaskType.EVENT,
           start_time := some 36000000000, end_time := some 39600000000 },
         { id := 2, type := TaskType.EVENT,
           start_time := some 28800000000, end_time := some 32400000000 }] 0) := by
  constructor
  · decide
  · decide

/-- Claim C3 (amended): `find_busy_intervals` returns the clipped intervals
of all tasks with placed times intersecting the date in the order the store
returns them; in particular the result is sorted by interval start whenever
the store returns the tasks in ascending order of `start_time`. -/
theorem find_busy_intervals_sorted_of_store_sorted (tasks : List Task) (d : ℤ)
    (h : List.Pairwise startOrderedT tasks) :
    List.Sorted startLE (find_busy_intervals tasks d) := by
  unfold find_busy_intervals
  induction tasks with
  | nil => simp
  | cons t rest ih =>
    rcases List.pairwise_cons.mp h with ⟨hhead, htail⟩
    rw [List.filterMap_cons]
    rcases hc : busyClipOf t d with _ | i
    · exact ih htail
    · refine List.sorted_cons.mpr ⟨?_, ih htail⟩
      intro j hj
      obtain ⟨u, hu, hcu⟩ := List.mem_filterMap.mp hj
      obtain ⟨s, e, hts, _, _, _, hieq⟩ := busyClipOf_some hc
      obtain ⟨su, eu, hus, _, _, _, hjeq⟩ := busyClipOf_some hcu
      have hord := hhead u hu
      unfold startOrderedT at hord
      rw [hts, hus] at hord
      show i.1 ≤ j.1
      rw [hieq, hjeq]
      simp only
      omega

/-- Claim C3 (amended) witness: a store returning the 8:00–9:00 event before
the 10:00–11:00 one yields a sorted busy list. -/
theorem find_busy_intervals_sorted_of_store_sorted_witness :
    List.Sorted startLE
      (find_busy_intervals
        [{ id := 2, type := TaskType.EVENT,
           start_time := some 28800000000, end_time := some 32400000000 },
         { id := 1, type := TaskType.EVENT,
           start_time := some 36000000000, end_time := some 39600000000 }] 0) :=
  find_busy_intervals_sorted_of_store_sorted _ 0 (by decide)

/-! ## Free-slot solver counterexample (claim C5) -/

/-- Claim C5 (counterexample): for the well-formed but overlapping window
list `[(0,10), (5,15)]` and no busy intervals, `find_free_slots` returns two
overlapping slots, so the returned intervals are not pairwise disjoint. -/
theorem find_free_slots_overlapping_windows :
    (∀ w ∈ [((0 : ℤ), (10 : ℤ)), (5, 15)], w.1 < w.2) ∧
    find_free_slots [((0 : ℤ), (10 : ℤ)), (5, 15)] [] = [(0, 10), (5, 15)] ∧
    overlaps (0, 10) (5, 15) := by
  refine ⟨by decide, by decide, by decide⟩

/-! ## Priority scorer (claims C1, C8, C10) -/

theorem pyOrInt_some (v : ℤ) : pyOrInt (some v) = v := by
  show (if v = 0 then 0 else v) = v
  split_ifs with h
  · omega
  · rfl

theorem numAttr_set_priority (t : Task) (p : Option ℤ) (f : String) :
    numAttr { t with priority := p } f =
      if f = "priority" then p.map (fun v => (v : ℚ)) else numAttr t f := by
  unfold numAttr
  split_ifs <;> rfl

theorem numAttr_set_deadline (t : Task) (d : Option ℤ) (f : String) :
    numAttr { t with deadline := d } f = numAttr t f := rfl

/-- The extensible-factor sum reads the task only through `numAttr` at keys
other than `priority` and `deadline`. -/
theorem extras_congr (t u : Task) (weights : List (String × ℚ))
    (h : ∀ k, k ≠ "priority" → k ≠ "deadline" → numAttr t k = numAttr u k) :
    (weights.map fun p =>
      if p.1 = "priority" ∨ p.1 = "deadline" then 0
      else
        match numAttr t p.1 with
        | some v => v * p.2
        | none => 0).sum =
    (weights.map fun p =>
      if p.1 = "priority" ∨ p.1 = "deadline" then 0
      else
        match numAttr u p.1 with
        | some v => v * p.2
        | none => 0).sum := by
  congr 1
  refine List.map_congr_left ?_
  intro p _
  by_cases hp : p.1 = "priority" ∨ p.1 = "deadline"
  · simp [hp]
  · push_neg at hp
    rw [if_neg (by tauto), if_neg (by tauto), h p.1 hp.1 hp.2]

/-- Claim C1 (counterexample): with a weight map lacking the `priority` key,
the weight defaults to 1.0, not 0: a task of priority 5 with no deadline and
an empty weight map scores 5, not 0. -/
theorem compute_priority_score_default_not_zero :
    compute_priority_score { id := 1, type := TaskType.TODO, priority := some 5 } 0 [] = 5 ∧
    (5 : ℚ) ≠ 0 := by
  constructor
  · simp [compute_priority_score, pyOrInt]
  · norm_num

/-- Claim C1 (amended): the base term is `task.priority × weights["priority"]`
where the weight defaults to 1.0 when the key is absent, so for a task with
no deadline whose other factors contribute nothing the score equals the
task's priority (0 when unset), not 0. -/
theorem compute_priority_score_no_priority_key (task : Task) (now : ℤ)
    (weights : List (String × ℚ))
    (hkey : weights.lookup "priority" = none)
    (hddl : task.deadline = none)
    (hextras : ∀ p ∈ weights, p.1 = "deadline" ∨ numAttr task p.1 = none ∨ p.2 = 0) :
    compute_priority_score task now weights = (pyOrInt task.priority : ℚ) := by
  unfold compute_priority_score
  rw [hkey, hddl]
  have hzero :
      (weights.map fun p =>
        if p.1 = "priority" ∨ p.1 = "deadline" then 0
        else
          match numAttr task p.1 with
          | some v => v * p.2
          | none => 0).sum = 0 := by
    refine List.sum_eq_zero ?_
    intro x hx
    obtain ⟨p, hp, hpx⟩ := List.mem_map.mp hx
    rw [← hpx]
    by_cases hc : p.1 = "priority" ∨ p.1 = "deadline"
    · rw [if_pos hc]
    · rw [if_neg hc]
      rcases hextras p hp with h | h | h
      · exact absurd (Or.inr h) hc
      · simp [h]
      · rcases hna : numAttr task p.1 with _ | v
        · simp [hna]
        · simp [hna, h]
  simp only [Option.getD_none, Option.getD_some, mul_one, hzero]
  ring

/-- Claim C1 (amended) witness at priority 7 with an empty weight map. -/
theorem compute_priority_score_no_priority_key_witness :
    compute_priority_score { id := 1, type := TaskType.TODO, priority := some 7 } 0 [] =
      (pyOrInt (some 7) : ℚ) :=
  compute_priority_score_no_priority_key _ 0 [] rfl rfl (by simp)

/-- Claim C8: with the other attributes held fixed, the score is
non-decreasing in the priority whenever the `priority` weight is positive,
and non-decreasing as the deadline moves closer to `now` (earlier deadline)
whenever the `deadline` weight is positive. -/
theorem compute_priority_score_monotone (t : Task) (now : ℤ) (w : List (String × ℚ)) :
    (∀ wp p1 p2, w.lookup "priority" = some wp → 0 < wp → p1 ≤ p2 →
      compute_priority_score { t with priority := some p1 } now w ≤
        compute_priority_score { t with priority := some p2 } now w) ∧
    (∀ wd d1 d2, w.lookup "deadline" = some wd → 0 < wd → d2 ≤ d1 →
      compute_priority_score { t with deadline := some d1 } now w ≤
        compute_priority_score { t with deadline := some d2 } now w) := by
  constructor
  · intro wp p1 p2 hwp hpos hle
    unfold compute_priority_score
    rw [hwp]
    have hbase : (pyOrInt (some p1) : ℚ) * wp ≤ (pyOrInt (some p2) : ℚ) * wp := by
      rw [pyOrInt_some, pyOrInt_some]
      exact mul_le_mul_of_nonneg_right (by exact_mod_cast hle) (le_of_lt hpos)
    have hext := extras_congr ({ t with priority := some p1 } : Task)
      ({ t with priority := some p2 } : Task) w ?_
    · simp only [Option.getD_some]
      rw [hext]
      exact add_le_add_right (add_le_add_right hbase _) _
    · intro k hk _
      show numAttr _ k = numAttr _ k
      unfold numAttr
      rw [if_neg hk, if_neg hk]
  · intro wd d1 d2 hwd hpos hle
    unfold compute_priority_score
    rw [hwd]
    have hext := extras_congr ({ t with deadline := some d1 } : Task)
      ({ t with deadline := some d2 } : Task) w (fun _ _ _ => rfl)
    have hurg : wd / max (((d1 - now : ℤ) : ℚ) / (usPerMinute : ℚ)) 1 ≤
        wd / max (((d2 - now : ℤ) : ℚ) / (usPerMinute : ℚ)) 1 := by
      have hM : (0 : ℚ) < (usPerMinute : ℚ) := by norm_num [usPerMinute]
      have hdelta : ((d2 - now : ℤ) : ℚ) / (usPerMinute : ℚ) ≤
          ((d1 - now : ℤ) : ℚ) / (usPerMinute : ℚ) := by
        refine (div_le_div_right hM).mpr ?_
        exact_mod_cast sub_le_sub_right hle now
      have h2pos : (0 : ℚ) < max (((d2 - now : ℤ) : ℚ) / (usPerMinute : ℚ)) 1 :=
        lt_of_lt_of_le one_pos (le_max_right _ _)
      exact div_le_div_of_nonneg_left (le_of_lt hpos) h2pos (max_le_max hdelta (le_refl 1))
    simp only [Option.getD_some]
    rw [hext]
    exact add_le_add_right (add_le_add_left hurg _) _

/-- Claim C8 witness: priority monotonicity at weights `{"priority": 1}`
between priorities 1 and 3, and deadline monotonicity at weights
`{"deadline": 1}` between deadlines 120 and 60 minutes out. -/
theorem compute_priority_score_monotone_witness :
    (compute_priority_score
        { id := 1, type := TaskType.TODO, priority := some 1 } 0 [("priority", 1)] ≤
      compute_priority_score
        { id := 1, type := TaskType.TODO, priority := some 3 } 0 [("priority", 1)]) ∧
    (compute_priority_score
        { id := 1, type := TaskType.TODO, deadline := some 7200000000 } 0 [("deadline", 1)] ≤
      compute_priority_score
        { id := 1, type := TaskType.TODO, deadline := some 3600000000 } 0 [("deadline", 1)]) := by
  constructor
  · exact (compute_priority_score_monotone
      { id := 1, type := TaskType.TODO } 0 [("priority", 1)]).1 1 1 3
      (by simp [List.lookup]) (by norm_num) (by norm_num)
  · exact (compute_priority_score_monotone
      { id := 1, type := TaskType.TODO } 0 [("deadline", 1)]).2 1 7200000000 3600000000
      (by simp [List.lookup]) (by norm_num) (by norm_num)

/-- Claim C10: `compute_priority_score` is total on tasks with an unset
priority: a task with priority `None` scores exactly as the same task with
priority 0, for every `now` and weight map. -/
theorem compute_priority_score_none_priority (t : Task) (now : ℤ)
    (w : List (String × ℚ)) :
    compute_priority_score { t with priority := none } now w =
      compute_priority_score { t with priority := some 0 } now w := by
  unfold compute_priority_score
  have hext := extras_congr ({ t with priority := none } : Task)
    ({ t with priority := some 0 } : Task) w ?_
  · rw [hext]
    norm_num [pyOrInt]
  · intro k hk _
    show numAttr _ k = numAttr _ k
    unfold numAttr
    rw [if_neg hk, if_neg hk]


/-! ## Scheduling engine: unfolding equations and claim C2 -/

theorem phase1Run_nil (fuel : ℕ) (cfg : AvailabilityConfig) (now : ℤ)
    (state ovf : List Task) : phase1Run fuel cfg now [] state ovf = some (state, ovf) := rfl

theorem phase1Run_cons (fuel : ℕ) (cfg : AvailabilityConfig) (now : ℤ)
    (task : Task) (rest state ovf : List Task) :
    phase1Run fuel cfg now (task :: rest) state ovf =
      match tryScheduleTask fuel state cfg now task with
      | none => none
      | some none => phase1Run fuel cfg now rest state (ovf ++ [task])
      | some (some c) => phase1Run fuel cfg now rest (applyPlacement state task.id c) ovf := rfl

theorem phase2Run_nil (state : List Task) (pointer : ℤ) :
    phase2Run state [] pointer = state := rfl

theorem phase2Run_cons (state : List Task) (task : Task) (rest : List Task) (pointer : ℤ) :
    phase2Run state (task :: rest) pointer =
      phase2Run (applyPlacement state task.id
        (pointer, pointer + pyOrInt task.estimate * usPerMinute)) rest
        (pointer + pyOrInt task.estimate * usPerMinute) := rfl

theorem slot_tasksWithOverflow_eq (fuel : ℕ) (tasks : List Task)
    (cfg : AvailabilityConfig) (weights : List (String × ℚ)) (now : ℤ)
    (h : (tasks.filter fun t => decide (t.type = TaskType.TODO)).isEmpty = false) :
    slot_tasksWithOverflow fuel tasks cfg weights now =
      match phase1Run fuel cfg now
          (List.insertionSort (scoreDesc weights now)
            ((resetTodos tasks).filter fun t => decide (t.type = TaskType.TODO)))
          (resetTodos tasks) [] with
      | none => none
      | some (state1, ovf) =>
        if ovf.isEmpty then some (state1, [])
        else
          some (phase2Run state1 ovf
            (match (merge_intervals (eventBusyToday state1 (dateOf now))).getLast? with
             | some m => m.2
             | none => now), ovf) := by
  unfold slot_tasksWithOverflow
  simp only [h, Bool.false_eq_true, if_false]

/-- The Phase-1 day scan with an entirely empty availability configuration
and no deadline never leaves the loop, whatever the fuel. -/
theorem phase1Scan_empty_avail_no_deadline (now est : ℤ) :
    ∀ fuel k (state : List Task),
      phase1Scan state ⟨fun _ => []⟩ now est none fuel k = none := by
  intro fuel
  induction fuel with
  | zero => intro k state; rfl
  | succ f ih =>
    intro k state
    show (if pastDeadlineDate none (dateOf (now + k * usPerDay)) then some none
      else
        let ws := dayWindows ⟨fun _ => []⟩ now k
        if ws.isEmpty then phase1Scan state ⟨fun _ => []⟩ now est none f (k + 1)
        else
          match findSlotInDay now est none
              (find_free_slots ws
                (find_busy_intervals state (dateOf (now + k * usPerDay)))) with
          | some c => some (some c)
          | none => phase1Scan state ⟨fun _ => []⟩ now est none f (k + 1)) = none
    have hws : dayWindows ⟨fun _ => []⟩ now k = [] := by
      unfold dayWindows AvailabilityConfig.get_windows_for_date
      simp
    rw [hws]
    simp only [pastDeadlineDate, List.isEmpty_nil, if_true, Bool.false_eq_true, if_false]
    exact ih (k + 1) state

/-- Claim C2 (code bug): `slot_tasks` does not terminate on every input. With
an entirely empty availability configuration, a TODO task without a deadline
(the `deadline` column is nullable) never reaches Phase 2: the Phase-1
`while True` day scan finds no break condition and loops forever, so for
every fuel bound the embedded run is still unfinished, while the spec
requires the run to end with every TODO task placed by Phase 1 or Phase 2. -/
theorem slot_tasks_diverges_no_deadline_empty_availability :
    ∀ fuel : ℕ,
      slot_tasks fuel [{ id := 1, type := TaskType.TODO, estimate := some 30 }]
        ⟨fun _ => []⟩ [] 0 = none := by
  intro fuel
  have hscan := phase1Scan_empty_avail_no_deadline 0 (pyOrInt (some 30)) fuel 0
    (resetTodos [{ id := 1, type := TaskType.TODO, estimate := some 30 }])
  have htry : tryScheduleTask fuel
      (resetTodos [{ id := 1, type := TaskType.TODO, estimate := some 30 }])
      ⟨fun _ => []⟩ 0 { id := 1, type := TaskType.TODO, estimate := some 30 } = none := hscan
  have hrun : phase1Run fuel ⟨fun _ => []⟩ 0
      [{ id := 1, type := TaskType.TODO, estimate := some 30 }]
      (resetTodos [{ id := 1, type := TaskType.TODO, estimate := some 30 }]) [] = none := by
    rw [phase1Run_cons, htry]
  have hempty : (([{ id := 1, type := TaskType.TODO, estimate := some 30 }] :
      List Task).filter fun t => decide (t.type = TaskType.TODO)).isEmpty = false := by
    decide
  have hsort : List.insertionSort (scoreDesc [] 0)
      ((resetTodos [{ id := 1, type := TaskType.TODO, estimate := some 30 }]).filter
        fun t => decide (t.type = TaskType.TODO)) =
      [{ id := 1, type := TaskType.TODO, estimate := some 30 }] := rfl
  unfold slot_tasks
  rw [slot_tasksWithOverflow_eq fuel _ _ _ _ hempty, hsort, hrun]
  rfl


/-! ## Day arithmetic -/

theorem usPerDay_pos : (0 : ℤ) < usPerDay := by norm_num [usPerDay]

theorem dateOf_add_days (now : ℤ) (k : ℕ) :
    dateOf (now + k * usPerDay) = dateOf now + k := by
  unfold dateOf
  exact_mod_cast Int.add_mul_ediv_right now (k : ℤ) (ne_of_gt usPerDay_pos)

theorem dateOf_bounds (t : ℤ) : day_start (dateOf t) ≤ t ∧ t ≤ day_end (dateOf t) := by
  unfold day_start day_end dateOf usPerDay
  omega

theorem dateOf_mono {a b : ℤ} (h : a ≤ b) : dateOf a ≤ dateOf b :=
  Int.ediv_le_ediv usPerDay_pos h

/-- A timestamp on an earlier date lies strictly before the later date's
first instant. -/
theorem lt_day_start_of_dateOf_lt {d td : ℤ} (h : dateOf d < td) : d < day_start td := by
  have h1 := (dateOf_bounds d).2
  have h2 : (dateOf d + 1) * usPerDay ≤ td * usPerDay :=
    mul_le_mul_of_nonneg_right (by omega) (le_of_lt usPerDay_pos)
  have h3 : (dateOf d + 1) * usPerDay = dateOf d * usPerDay + usPerDay := by ring
  unfold day_end at h1
  unfold day_start
  have h4 := usPerDay_pos
  omega

/-! ## Phase 1 refines the spec's first-fit rule (claim C7) -/

theorem findSlotInDay_eq_spec (now est : ℤ) (ddl : Option ℤ) (slots : List Ival) :
    findSlotInDay now est ddl slots = spec_first_fit slots now est ddl := by
  induction slots with
  | nil => rfl
  | cons s rest ih =>
    unfold findSlotInDay spec_first_fit
    rcases hv : ddlViolated ddl (max s.1 now + est * usPerMinute) with _ | _
    · -- deadline not violated by the candidate
      simp only [hv, Bool.false_eq_true, if_false]
      by_cases hfit : max s.1 now + est * usPerMinute ≤ s.2
      · have hacc : spec_accepts now est ddl s = true := by
          unfold spec_accepts ddlViolated at *
          rcases ddl with _ | d
          · simpa using hfit
          · simp only [Bool.and_eq_true, decide_eq_true_eq]
            simp only [decide_eq_false_iff_not, not_lt] at hv
            exact ⟨hfit, hv⟩
        rw [List.find?_cons_of_pos _ hacc]
        simp [hfit]
      · have hacc : spec_accepts now est ddl s = false := by
          unfold spec_accepts
          simp only [Bool.and_eq_false_iff, decide_eq_false_iff_not]
          exact Or.inl hfit
        rw [List.find?_cons_of_neg _ (by simp [hacc])]
        rw [if_neg hfit]
        unfold spec_first_fit at ih
        exact ih
    · -- candidate misses the deadline: skipped
      simp only [hv, if_true]
      have hacc : spec_accepts now est ddl s = false := by
        unfold spec_accepts ddlViolated at *
        rcases ddl with _ | d
        · simp at hv
        · simp only [decide_eq_true_eq] at hv
          simp only [Bool.and_eq_false_iff, decide_eq_false_iff_not, not_le]
          exact Or.inr hv
      rw [List.find?_cons_of_neg _ (by simp [hacc])]
      unfold spec_first_fit at ih
      exact ih

/-- Every free slot lies inside one of the availability windows passed in. -/
theorem find_free_slots_in_window (ws busy : List Ival) :
    ∀ s ∈ find_free_slots ws busy, ∃ w ∈ ws, w.1 ≤ s.1 ∧ s.1 < s.2 ∧ s.2 ≤ w.2 := by
  intro s hs
  obtain ⟨w, hw, hsw⟩ : ∃ w ∈ ws, s ∈ freeInWindow w.1 w.2 (merge_intervals busy) := by
    obtain ⟨u, v, huv, h⟩ :
        ∃ u v, (u, v) ∈ ws ∧ s ∈ freeInWindow u v (merge_intervals busy) := by
      simpa [find_free_slots] using hs
    exact ⟨(u, v), huv, h⟩
  exact ⟨w, hw, (freeInWindow_bounds _ _ _ s hsw).1, (freeInWindow_bounds _ _ _ s hsw).2.1,
    (freeInWindow_bounds _ _ _ s hsw).2.2⟩

/-- With a valid configuration every window used on day offset `k` is
nonempty, starts no earlier than that day's first instant, and ends at or
before that day's last instant. -/
theorem dayWindows_bounds (cfg : AvailabilityConfig) (now : ℤ) (k : ℕ)
    (hvalid : ValidConfig cfg) :
    ∀ w ∈ dayWindows cfg now k,
      day_start (dateOf now + k) ≤ w.1 ∧ w.1 < w.2 ∧ w.2 ≤ day_end (dateOf now + k) := by
  intro w hw
  unfold dayWindows AvailabilityConfig.get_windows_for_date at hw
  rw [dateOf_add_days] at hw
  by_cases hk : k = 0
  · subst hk
    simp only [if_pos rfl] at hw
    obtain ⟨u, hu, huw⟩ := List.mem_map.mp hw
    obtain ⟨hu1, hu2⟩ := List.mem_filter.mp hu
    obtain ⟨p, hp, hpu⟩ := List.mem_map.mp hu1
    have hpb := hvalid _ p hp
    have hnow := dateOf_bounds now
    have hw12 : w.1 = max u.1 now ∧ w.2 = u.2 := by rw [← huw]; exact ⟨rfl, rfl⟩
    have hu12 : u.1 = day_start (dateOf now + (0 : ℕ)) + p.1 ∧
        u.2 = day_start (dateOf now + (0 : ℕ)) + p.2 := by
      rw [← hpu]; exact ⟨rfl, rfl⟩
    have hu2' : now < u.2 := by
      have := hu2
      simp only [decide_eq_true_eq] at this
      exact this
    rcases hw12 with ⟨hwa, hwb⟩
    rcases hu12 with ⟨hua, hub⟩
    rw [hwa, hwb, hua, hub]
    rw [hub] at hu2'
    simp only [Nat.cast_zero, add_zero] at *
    unfold day_start day_end at *
    omega
  · rw [if_neg hk] at hw
    obtain ⟨p, hp, hpu⟩ := List.mem_map.mp hw
    have hpb := hvalid _ p hp
    have hw12 : w.1 = day_start (dateOf now + (k : ℤ)) + p.1 ∧
        w.2 = day_start (dateOf now + (k : ℤ)) + p.2 := by
      rw [← hpu]; exact ⟨rfl, rfl⟩
    rcases hw12 with ⟨hwa, hwb⟩
    rw [hwa, hwb]
    unfold day_start day_end at *
    omega

/-- On a day strictly after the deadline's date no candidate is acceptable
(the candidate would end after the deadline), so the spec-side day candidate
is empty. -/
theorem spec_day_candidate_none_past (state : List Task) (cfg : AvailabilityConfig)
    (now est d : ℤ) (k : ℕ) (hvalid : ValidConfig cfg) (hest : 0 ≤ est)
    (hpast : dateOf d < dateOf now + k) :
    spec_day_candidate state cfg now est (some d) k = none := by
  have hnone : List.find? (spec_accepts now est (some d))
      (find_free_slots (dayWindows cfg now k)
        (find_busy_intervals state (dateOf (now + (k : ℤ) * usPerDay)))) = none := by
    refine List.find?_eq_none.mpr ?_
    intro s hs
    obtain ⟨w, hw, hws⟩ := find_free_slots_in_window _ _ s hs
    have hwb := dayWindows_bounds cfg now k hvalid w hw
    have hd : d < day_start (dateOf now + k) := lt_day_start_of_dateOf_lt hpast
    have hm : (0 : ℤ) ≤ est * usPerMinute :=
      mul_nonneg hest (le_of_lt (by norm_num [usPerMinute]))
    rw [Bool.not_eq_true]
    show (decide (max s.1 now + est * usPerMinute ≤ s.2) &&
      decide (max s.1 now + est * usPerMinute ≤ d)) = false
    exact Bool.and_eq_false_iff.mpr (Or.inr (decide_eq_false (by omega)))
  unfold spec_day_candidate spec_first_fit
  rw [hnone]
  rfl

theorem spec_placement_none_past (state : List Task) (cfg : AvailabilityConfig)
    (now est d : ℤ) (hvalid : ValidConfig cfg) (hest : 0 ≤ est) :
    ∀ (fuel k : ℕ), dateOf d < dateOf now + k →
      spec_placement state cfg now est (some d) fuel k = none := by
  intro fuel
  induction fuel with
  | zero => intro k _; rfl
  | succ f ih =>
    intro k hpast
    show (match spec_day_candidate state cfg now est (some d) k with
      | some c => some c
      | none => spec_placement state cfg now est (some d) f (k + 1)) = none
    rw [spec_day_candidate_none_past state cfg now est d k hvalid hest hpast]
    refine ih (k + 1) ?_
    push_cast
    push_cast at hpast
    omega

/-- Whenever the Phase-1 day scan finishes (either placing the task or
sending it to overflow), its outcome is exactly the spec's first-fit
placement over the scanned days. -/
theorem phase1Scan_eq_spec_placement (state : List Task) (cfg : AvailabilityConfig)
    (now est : ℤ) (ddl : Option ℤ) (hvalid : ValidConfig cfg) (hest : 0 ≤ est) :
    ∀ fuel k r, phase1Scan state cfg now est ddl fuel k = some r →
      spec_placement state cfg now est ddl fuel k = r := by
  intro fuel
  induction fuel with
  | zero => intro k r h; exact absurd h (by simp [phase1Scan])
  | succ f ih =>
    intro k r h
    rw [show phase1Scan state cfg now est ddl (f + 1) k =
      (if pastDeadlineDate ddl (dateOf (now + k * usPerDay)) then some none
      else
        let ws := dayWindows cfg now k
        if ws.isEmpty then phase1Scan state cfg now est ddl f (k + 1)
        else
          match findSlotInDay now est ddl
              (find_free_slots ws
                (find_busy_intervals state (dateOf (now + k * usPerDay)))) with
          | some c => some (some c)
          | none => phase1Scan state cfg now est ddl f (k + 1)) from rfl] at h
    show (match spec_day_candidate state cfg now est ddl k with
      | some c => some c
      | none => spec_placement state cfg now est ddl f (k + 1)) = r
    rcases hpast : pastDeadlineDate ddl (dateOf (now + k * usPerDay)) with _ | _
    · rw [if_neg (by simp [hpast])] at h
      by_cases hws : (dayWindows cfg now k).isEmpty
      · rw [if_pos hws] at h
        have hwsnil : dayWindows cfg now k = [] := List.isEmpty_iff.mp hws
        have hcand : spec_day_candidate state cfg now est ddl k = none := by
          unfold spec_day_candidate spec_first_fit
          rw [hwsnil]
          rfl
        rw [hcand]
        exact ih (k + 1) r h
      · rw [if_neg hws] at h
        have hcand : spec_day_candidate state cfg now est ddl k =
            findSlotInDay now est ddl
              (find_free_slots (dayWindows cfg now k)
                (find_busy_intervals state (dateOf (now + k * usPerDay)))) := by
          unfold spec_day_candidate
          rw [findSlotInDay_eq_spec]
        rcases hslot : findSlotInDay now est ddl
            (find_free_slots (dayWindows cfg now k)
              (find_busy_intervals state (dateOf (now + k * usPerDay)))) with _ | c
        · rw [hslot] at h
          rw [hcand, hslot]
          exact ih (k + 1) r h
        · rw [hslot] at h
          have hr : r = some c := by simpa using h.symm
          subst hr
          rw [hcand, hslot]
    · rw [if_pos (by simp [hpast])] at h
      have hr : r = none := by simpa using h.symm
      subst hr
      rcases ddl with _ | d
      · simp [pastDeadlineDate] at hpast
      · simp only [pastDeadlineDate, decide_eq_true_eq, dateOf_add_days] at hpast
        rw [spec_day_candidate_none_past state cfg now est d k hvalid hest hpast]
        refine spec_placement_none_past state cfg now est d hvalid hest f (k + 1) ?_
        push_cast
        push_cast at hpast
        omega

/-- Claim C7: in Phase 1 of `slot_tasks`, a task whose deadline is at or
before `now` goes directly to overflow; otherwise, whenever the day scan
finishes, the task's outcome is the first candidate — in free-slot order
within a day and then in ascending day order — whose start is the later of
the slot start and `now` and whose end fits both the slot and the deadline
when one exists (`none` meaning no day yields a candidate and the task
overflows). -/
theorem slot_tasks_phase1_placement_rule (fuel : ℕ) (state : List Task)
    (cfg : AvailabilityConfig) (now : ℤ) (task : Task)
    (hvalid : ValidConfig cfg) (hest : 0 ≤ pyOrInt task.estimate) :
    (∀ d, task.deadline = some d → d ≤ now →
      tryScheduleTask fuel state cfg now task = some none) ∧
    (∀ r, (∀ d, task.deadline = some d → now < d) →
      tryScheduleTask fuel state cfg now task = some r →
      spec_placement state cfg now (pyOrInt task.estimate) task.deadline fuel 0 = r) := by
  constructor
  · intro d hd hdnow
    unfold tryScheduleTask
    rw [hd]
    simp [hdnow]
  · intro r hlive h
    rcases hd : task.deadline with _ | d
    · have h' : phase1Scan state cfg now (pyOrInt task.estimate) none fuel 0 = some r := by
        unfold tryScheduleTask at h
        rw [hd] at h
        exact h
      exact phase1Scan_eq_spec_placement state cfg now _ none hvalid hest fuel 0 r h'
    · have h' : (if d ≤ now then some none
          else phase1Scan state cfg now (pyOrInt task.estimate) (some d) fuel 0) = some r := by
        unfold tryScheduleTask at h
        rw [hd] at h
        exact h
      rw [if_neg (not_le.mpr (hlive d hd))] at h'
      exact phase1Scan_eq_spec_placement state cfg now _ (some d) hvalid hest fuel 0 r h'

/-- Claim C7 witness: with a daily 9:00–10:00 window, no busy tasks, `now` at
midnight of day 0 and a deadline at 17:00, the scan places the task at
9:00–9:30, which is exactly the spec-side first accepted candidate. -/
theorem slot_tasks_phase1_placement_rule_witness :
    spec_placement [] ⟨fun _ => [(32400000000, 36000000000)]⟩ 0 (pyOrInt (some 30))
        (some 61200000000) 3 0 = some (32400000000, 34200000000) :=
  (slot_tasks_phase1_placement_rule 3 [] ⟨fun _ => [(32400000000, 36000000000)]⟩ 0
      { id := 1, type := TaskType.TODO, estimate := some 30, deadline := some 61200000000 }
      (by
        intro wd p hp
        have hp' : p ∈ [((32400000000 : ℤ), (36000000000 : ℤ))] := hp
        rw [List.mem_singleton] at hp'
        subst hp'
        refine ⟨by norm_num, by norm_num, by norm_num [usPerDay]⟩)
      (by decide)).2
    (some (32400000000, 34200000000))
    (fun d hd => by cases hd; decide)
    (by decide)


/-! ## Frame and state-update lemmas shared by the run-level claims -/

/-- Claim C5 (amended) witness: windows 0–10 and 20–30 with busy 5–7 and
25–40 give slots avoiding the merged busy set, pairwise disjoint and
ordered. -/
theorem find_free_slots_spec_witness :
    (∀ s ∈ find_free_slots [((0 : ℤ), 10), (20, 30)] [(5, 7), (25, 40)],
        ∀ m ∈ merge_intervals [((5 : ℤ), 7), (25, 40)], ¬ overlaps s m) ∧
    List.Pairwise (fun a b : Ival => a.2 ≤ b.1)
      (find_free_slots [((0 : ℤ), 10), (20, 30)] [(5, 7), (25, 40)]) :=
  ⟨(find_free_slots_spec [((0 : ℤ), 10), (20, 30)] [(5, 7), (25, 40)]
      (by decide) (by decide) (by decide)).2.1,
    (find_free_slots_spec [((0 : ℤ), 10), (20, 30)] [(5, 7), (25, 40)]
      (by decide) (by decide) (by decide)).2.2.2⟩

theorem forall2_mem_right {R : Task → Task → Prop} :
    ∀ {l1 l2 : List Task}, List.Forall₂ R l1 l2 → ∀ b ∈ l2, ∃ a ∈ l1, R a b := by
  intro l1 l2 h
  induction h with
  | nil => intro b hb; simp at hb
  | cons h1 h2 ih =>
    intro b hb
    rcases List.mem_cons.mp hb with rfl | hb'
    · exact ⟨_, List.mem_cons_self _ _, h1⟩
    · obtain ⟨a, ha, hr⟩ := ih b hb'
      exact ⟨a, List.mem_cons_of_mem _ ha, hr⟩

theorem forall2_mem_left {R : Task → Task → Prop} :
    ∀ {l1 l2 : List Task}, List.Forall₂ R l1 l2 → ∀ a ∈ l1, ∃ b ∈ l2, R a b := by
  intro l1 l2 h
  induction h with
  | nil => intro a ha; simp at ha
  | cons h1 h2 ih =>
    intro a ha
    rcases List.mem_cons.mp ha with rfl | ha'
    · exact ⟨_, List.mem_cons_self _ _, h1⟩
    · obtain ⟨b, hb, hr⟩ := ih a ha'
      exact ⟨b, List.mem_cons_of_mem _ hb, hr⟩

theorem forall2_compose {R S T : Task → Task → Prop}
    (h : ∀ a b c, R a b → S b c → T a c) :
    ∀ {l1 l2 l3 : List Task}, List.Forall₂ R l1 l2 → List.Forall₂ S l2 l3 →
      List.Forall₂ T l1 l3 := by
  intro l1 l2 l3 h12
  induction h12 generalizing l3 with
  | nil =>
    intro h23
    cases h23
    exact List.Forall₂.nil
  | cons h1 h2 ih =>
    intro h23
    cases h23 with
    | cons h3 h4 => exact List.Forall₂.cons (h _ _ _ h1 h3) (ih h4)

/-- Transport a pairwise property along a positional relation. -/
theorem pairwise_of_forall2 {S Q Q' : Task → Task → Prop} :
    ∀ {l1 l2 : List Task}, List.Forall₂ S l1 l2 → List.Pairwise Q l1 →
      (∀ a b a' b', S a a' → S b b' → Q a b → Q' a' b') → List.Pairwise Q' l2 := by
  intro l1 l2 h
  induction h with
  | nil => intro _ _; exact List.Pairwise.nil
  | cons h1 h2 ih =>
    intro hp himp
    rcases List.pairwise_cons.mp hp with ⟨hhead, htl⟩
    refine List.pairwise_cons.mpr ⟨?_, ih htl himp⟩
    intro b' hb'
    obtain ⟨b, hb, hS⟩ := forall2_mem_right h2 b' hb'
    exact himp _ b _ b' h1 hS (hhead b hb)

theorem resetTodos_frame (tasks : List Task) :
    List.Forall₂ frameEq tasks (resetTodos tasks) := by
  unfold resetTodos
  rw [List.forall₂_map_right_iff, List.forall₂_same]
  intro t _
  unfold frameEq
  split_ifs with h
  · exact ⟨rfl, rfl, rfl, rfl, rfl, rfl, rfl, rfl, rfl, rfl,
      fun hev => absurd (h.symm.trans hev) (by decide)⟩
  · exact ⟨rfl, rfl, rfl, rfl, rfl, rfl, rfl, rfl, rfl, rfl, fun _ => ⟨rfl, rfl, rfl⟩⟩

theorem applyPlacement_cons (t : Task) (l : List Task) (i : ℤ) (c : Ival) :
    applyPlacement (t :: l) i c =
      (if t.id = i then
        { t with start_time := some c.1, end_time := some c.2,
                 scheduled_for := some (dateOf c.1) }
       else t) :: applyPlacement l i c := rfl

/-- Positional description of a committed placement: ids, kinds and
caller-owned fields are untouched, non-matching records are unchanged and
the matching record receives exactly the placement's fields. -/
theorem applyPlacement_fields (s : List Task) (i : ℤ) (c : Ival) :
    List.Forall₂ (fun t r =>
      r.id = t.id ∧ r.type = t.type ∧ r.estimate = t.estimate ∧ r.deadline = t.deadline ∧
      (t.id ≠ i → r = t) ∧
      (t.id = i → r = { t with start_time := some c.1, end_time := some c.2,
                               scheduled_for := some (dateOf c.1) }))
      s (applyPlacement s i c) := by
  unfold applyPlacement
  rw [List.forall₂_map_right_iff, List.forall₂_same]
  intro t _
  split_ifs with h
  · exact ⟨rfl, rfl, rfl, rfl, fun hne => absurd h hne, fun _ => rfl⟩
  · exact ⟨rfl, rfl, rfl, rfl, fun _ => rfl, fun heq => absurd heq h⟩

theorem forall2_frameEq_applyPlacement {i : ℤ} {c : Ival} :
    ∀ {tasks s : List Task}, List.Forall₂ frameEq tasks s →
      (∀ t ∈ tasks, t.id = i → t.type = TaskType.TODO) →
      List.Forall₂ frameEq tasks (applyPlacement s i c) := by
  intro tasks s hF
  induction hF with
  | nil => intro _; exact List.Forall₂.nil
  | @cons a b l1 l2 h1 h2 ih =>
    intro hid
    rw [applyPlacement_cons]
    refine List.Forall₂.cons ?_ (ih fun t ht hti => hid t (List.mem_cons_of_mem _ ht) hti)
    split_ifs with hb
    · have ha : a.id = i := h1.1.symm.trans hb
      have htodo := hid a (List.mem_cons_self _ _) ha
      obtain ⟨e1, e2, e3, e4, e5, e6, e7, e8, e9, e10, _⟩ := h1
      exact ⟨e1, e2, e3, e4, e5, e6, e7, e8, e9, e10,
        fun hev => absurd (htodo.symm.trans hev) (by decide)⟩
    · exact h1

theorem forall2_frameEq_map_id {tasks s : List Task}
    (h : List.Forall₂ frameEq tasks s) : s.map Task.id = tasks.map Task.id := by
  induction h with
  | nil => rfl
  | cons h1 h2 ih => simpa [ih] using h1.1

/-- Distinct primary keys, transported from the original store list to any
frame-preserving state. -/
theorem pairwise_ne_id_of_frame {tasks s : List Task}
    (hN : (tasks.map Task.id).Nodup) (h : List.Forall₂ frameEq tasks s) :
    List.Pairwise (fun a b : Task => a.id ≠ b.id) s := by
  have : (s.map Task.id).Nodup := by rw [forall2_frameEq_map_id h]; exact hN
  exact (List.pairwise_map.mp this)

/-- With distinct primary keys, two store members sharing an id coincide. -/
theorem eq_of_mem_of_id_eq {tasks : List Task} (hN : (tasks.map Task.id).Nodup)
    {a b : Task} (ha : a ∈ tasks) (hb : b ∈ tasks) (h : a.id = b.id) : a = b :=
  List.inj_on_of_nodup_map hN ha hb h


/-! ## Safety of Phase-1 placements -/

theorem findSlotInDay_some_elim (now est : ℤ) (ddl : Option ℤ) :
    ∀ (slots : List Ival) (c : Ival), findSlotInDay now est ddl slots = some c →
      ∃ s ∈ slots, c = (max s.1 now, max s.1 now + est * usPerMinute) ∧
        max s.1 now + est * usPerMinute ≤ s.2 := by
  intro slots
  induction slots with
  | nil => intro c h; exact absurd h (by simp [findSlotInDay])
  | cons s rest ih =>
    intro c h
    have h' : (if ddlViolated ddl (max s.1 now + est * usPerMinute) then
        findSlotInDay now est ddl rest
      else if max s.1 now + est * usPerMinute ≤ s.2 then
        some (max s.1 now, max s.1 now + est * usPerMinute)
      else findSlotInDay now est ddl rest) = some c := h
    rcases hv : ddlViolated ddl (max s.1 now + est * usPerMinute) with _ | _
    · rw [hv] at h'
      simp only [Bool.false_eq_true, if_false] at h'
      by_cases hfit : max s.1 now + est * usPerMinute ≤ s.2
      · rw [if_pos hfit] at h'
        exact ⟨s, List.mem_cons_self _ _, (Option.some.inj h').symm, hfit⟩
      · rw [if_neg hfit] at h'
        obtain ⟨u, hu, hc⟩ := ih c h'
        exact ⟨u, List.mem_cons_of_mem _ hu, hc⟩
    · rw [hv] at h'
      simp only [if_true] at h'
      obtain ⟨u, hu, hc⟩ := ih c h'
      exact ⟨u, List.mem_cons_of_mem _ hu, hc⟩

theorem phase1Scan_some_elim (state : List Task) (cfg : AvailabilityConfig)
    (now est : ℤ) (ddl : Option ℤ) :
    ∀ (fuel k : ℕ) (c : Ival), phase1Scan state cfg now est ddl fuel k = some (some c) →
      ∃ j : ℕ, findSlotInDay now est ddl
        (find_free_slots (dayWindows cfg now j)
          (find_busy_intervals state (dateOf (now + j * usPerDay)))) = some c := by
  intro fuel
  induction fuel with
  | zero => intro k c h; exact absurd h (by simp [phase1Scan])
  | succ f ih =>
    intro k c h
    rw [show phase1Scan state cfg now est ddl (f + 1) k =
      (if pastDeadlineDate ddl (dateOf (now + k * usPerDay)) then some none
      else
        let ws := dayWindows cfg now k
        if ws.isEmpty then phase1Scan state cfg now est ddl f (k + 1)
        else
          match findSlotInDay now est ddl
              (find_free_slots ws
                (find_busy_intervals state (dateOf (now + k * usPerDay)))) with
          | some c => some (some c)
          | none => phase1Scan state cfg now est ddl f (k + 1)) from rfl] at h
    by_cases hpast : pastDeadlineDate ddl (dateOf (now + k * usPerDay)) = true
    · rw [if_pos hpast] at h
      simp at h
    · rw [if_neg hpast] at h
      by_cases hws : (dayWindows cfg now k).isEmpty
      · rw [if_pos hws] at h
        exact ih (k + 1) c h
      · rw [if_neg hws] at h
        rcases hslot : findSlotInDay now est ddl
            (find_free_slots (dayWindows cfg now k)
              (find_busy_intervals state (dateOf (now + k * usPerDay)))) with _ | c'
        · rw [hslot] at h
          exact ih (k + 1) c h
        · rw [hslot] at h
          have : c' = c := by simpa using h
          exact ⟨k, this ▸ hslot⟩

theorem find_free_slots_mem_elim {ws busy : List Ival} {s : Ival}
    (hs : s ∈ find_free_slots ws busy) :
    ∃ w ∈ ws, s ∈ freeInWindow w.1 w.2 (merge_intervals busy) := by
  obtain ⟨u, v, huv, h⟩ :
      ∃ u v, (u, v) ∈ ws ∧ s ∈ freeInWindow u v (merge_intervals busy) := by
    simpa [find_free_slots] using hs
  exact ⟨(u, v), huv, h⟩

/-- Core safety argument: a free slot computed for a day against the current
store state cannot overlap the committed interval of any task in the state.
The slot sits inside an availability window of that day, the window sits
inside the day's bounds, and any placed task reaching into that day
contributes a clipped busy interval the slot avoids. -/
theorem free_slot_safe (state : List Task) (cfg : AvailabilityConfig) (now : ℤ)
    (j : ℕ) (hvalid : ValidConfig cfg) {s : Ival}
    (hs : s ∈ find_free_slots (dayWindows cfg now j)
      (find_busy_intervals state (dateOf (now + j * usPerDay)))) :
    ∀ t ∈ state, ∀ i, placedIval t = some i → ¬ overlaps s i := by
  intro t ht i hi hov
  set td := dateOf (now + j * usPerDay) with htd
  have htd' : td = dateOf now + j := by rw [htd, dateOf_add_days]
  obtain ⟨w, hw, hsw⟩ := find_free_slots_mem_elim hs
  have hsb := freeInWindow_bounds _ _ _ s hsw
  have hwb := dayWindows_bounds cfg now j hvalid w hw
  rw [← htd'] at hwb
  obtain ⟨x, hxs, hxi⟩ := (overlaps_iff_exists_mem s i).mp hov
  obtain ⟨hxs1, hxs2⟩ := hxs
  obtain ⟨hxi1, hxi2⟩ := hxi
  -- the task contributes a clipped busy interval for this date
  have hts : t.start_time = some i.1 ∧ t.end_time = some i.2 := by
    unfold placedIval at hi
    rcases h1 : t.start_time with _ | a <;> rcases h2 : t.end_time with _ | b <;>
      rw [h1, h2] at hi
    · simp at hi
    · simp at hi
    · simp at hi
    · have hab : (a, b) = i := by simpa using hi
      subst hab
      exact ⟨rfl, rfl⟩
  have hdayle : day_start td ≤ x ∧ x < day_end td := by
    constructor
    · calc day_start td ≤ w.1 := hwb.1
        _ ≤ s.1 := hsb.1
        _ ≤ x := hxs1
    · calc x < s.2 := hxs2
        _ ≤ w.2 := hsb.2.2
        _ ≤ day_end td := hwb.2.2
  have hclip : busyClipOf t td = some (max i.1 (day_start td), min i.2 (day_end td)) := by
    unfold busyClipOf
    rw [hts.1, hts.2]
    show (if i.1 < day_end td ∧ day_start td < i.2 then
      some (max i.1 (day_start td), min i.2 (day_end td)) else none) = _
    rw [if_pos ⟨by omega, by omega⟩]
  have hbusy : (max i.1 (day_start td), min i.2 (day_end td)) ∈
      find_busy_intervals state td := by
    unfold find_busy_intervals
    exact List.mem_filterMap.mpr ⟨t, ht, hclip⟩
  have hxclip : memI x (max i.1 (day_start td), min i.2 (day_end td)) := by
    unfold memI
    constructor
    · simp only
      omega
    · simp only
      omega
  obtain ⟨m, hm, hxm⟩ := (merge_intervals_union (find_busy_intervals state td) x).mpr
    ⟨_, hbusy, hxclip⟩
  have hnool := freeInWindow_no_overlap _ _ _
    (merge_intervals_sorted (find_busy_intervals state td)) s hsw m hm
  exact hnool ((overlaps_iff_exists_mem s m).mpr ⟨x, ⟨hxs1, hxs2⟩, hxm⟩)

/-- A Phase-1 placement for a task is exactly estimate minutes long and
overlaps no committed interval of the current state. -/
theorem tryScheduleTask_safe (fuel : ℕ) (state : List Task) (cfg : AvailabilityConfig)
    (now : ℤ) (task : Task) (c : Ival) (hvalid : ValidConfig cfg)
    (h : tryScheduleTask fuel state cfg now task = some (some c)) :
    c.2 = c.1 + pyOrInt task.estimate * usPerMinute ∧
    ∀ t ∈ state, ∀ i, placedIval t = some i → ¬ overlaps c i := by
  have hscan : ∃ ddl, phase1Scan state cfg now (pyOrInt task.estimate) ddl fuel 0 =
      some (some c) := by
    unfold tryScheduleTask at h
    rcases hd : task.deadline with _ | d
    · rw [hd] at h
      exact ⟨none, h⟩
    · rw [hd] at h
      have h' : (if d ≤ now then (some none : Option (Option Ival))
          else phase1Scan state cfg now (pyOrInt task.estimate) (some d) fuel 0) =
          some (some c) := h
      by_cases hdn : d ≤ now
      · rw [if_pos hdn] at h'
        simp at h'
      · rw [if_neg hdn] at h'
        exact ⟨some d, h'⟩
  obtain ⟨ddl, hscan⟩ := hscan
  obtain ⟨j, hj⟩ := phase1Scan_some_elim state cfg now _ ddl fuel 0 c hscan
  obtain ⟨s, hsmem, hceq, hfit⟩ := findSlotInDay_some_elim now _ ddl _ c hj
  constructor
  · rw [hceq]
  · intro t ht i hi hov
    refine free_slot_safe state cfg now j hvalid hsmem t ht i hi ?_
    refine overlaps_mono_left ?_ ?_ hov
    · rw [hceq]
      exact le_max_left _ _
    · rw [hceq]
      exact hfit


theorem noOverlapT_iff (a b : Task) :
    noOverlapT a b ↔
      ∀ ia ib, placedIval a = some ia → placedIval b = some ib → ¬ overlaps ia ib := by
  unfold noOverlapT
  rcases ha : placedIval a with _ | ia <;> rcases hb : placedIval b with _ | ib <;> simp

theorem placedIval_update (t : Task) (c : Ival) :
    placedIval { t with start_time := some c.1, end_time := some c.2,
                        scheduled_for := some (dateOf c.1) } = some c := rfl

/-- The Phase-1 fold: frame preservation, pairwise non-overlap of committed
intervals, estimate-sized TODO intervals, coverage of unplaced TODOs by the
overflow list, and provenance of the overflow list. -/
theorem phase1Run_main (tasks : List Task) (cfg : AvailabilityConfig) (now : ℤ)
    (fuel : ℕ) (hN : (tasks.map Task.id).Nodup) (hvalid : ValidConfig cfg) :
    ∀ (pending state ovfAcc state1 ovf1 : List Task),
      phase1Run fuel cfg now pending state ovfAcc = some (state1, ovf1) →
      List.Forall₂ frameEq tasks state →
      List.Pairwise noOverlapT state →
      AllWellSized state →
      (∀ p ∈ pending ++ ovfAcc, p.type = TaskType.TODO ∧
        (∀ t ∈ tasks, t.id = p.id → t.type = TaskType.TODO) ∧
        (∀ t ∈ state, t.id = p.id → t.estimate = p.estimate)) →
      (∀ t ∈ state, t.type = TaskType.TODO →
        (∃ i, placedIval t = some i) ∨ t.id ∈ (pending ++ ovfAcc).map Task.id) →
      List.Forall₂ frameEq tasks state1 ∧
      List.Pairwise noOverlapT state1 ∧
      AllWellSized state1 ∧
      (∀ t ∈ state1, t.type = TaskType.TODO →
        (∃ i, placedIval t = some i) ∨ t.id ∈ ovf1.map Task.id) ∧
      (∀ p ∈ ovf1, p ∈ pending ++ ovfAcc) := by
  intro pending
  induction pending with
  | nil =>
    intro state ovfAcc state1 ovf1 h hF hP hW hpo hplaced
    rw [phase1Run_nil] at h
    obtain ⟨rfl, rfl⟩ : state = state1 ∧ ovfAcc = ovf1 := by
      have := Option.some.inj h
      exact ⟨congrArg Prod.fst this, congrArg Prod.snd this⟩
    refine ⟨hF, hP, hW, ?_, ?_⟩
    · intro t ht htype
      simpa using hplaced t ht htype
    · intro p hp
      simpa using hp
  | cons task rest ih =>
    intro state ovfAcc state1 ovf1 h hF hP hW hpo hplaced
    rw [phase1Run_cons] at h
    rcases htry : tryScheduleTask fuel state cfg now task with _ | r
    · rw [htry] at h
      simp at h
    · rcases r with _ | c
      · -- overflow: the task joins the accumulator
        rw [htry] at h
        have h' : phase1Run fuel cfg now rest state (ovfAcc ++ [task]) =
            some (state1, ovf1) := h
        have hres := ih state (ovfAcc ++ [task]) state1 ovf1 h' hF hP hW ?_ ?_
        · refine ⟨hres.1, hres.2.1, hres.2.2.1, hres.2.2.2.1, ?_⟩
          intro p hp
          have := hres.2.2.2.2 p hp
          simp only [List.mem_append, List.mem_cons, List.mem_singleton] at this ⊢
          tauto
        · intro p hp
          refine hpo p ?_
          simp only [List.mem_append, List.mem_cons, List.mem_singleton] at hp ⊢
          tauto
        · intro t ht htype
          rcases hplaced t ht htype with hpl | hid
          · exact Or.inl hpl
          · refine Or.inr ?_
            have hperm : List.Perm ((task :: rest) ++ ovfAcc) (rest ++ (ovfAcc ++ [task])) := by
              rw [List.cons_append, ← List.append_assoc]
              exact (List.perm_append_singleton task (rest ++ ovfAcc)).symm
            exact ((hperm.map Task.id).mem_iff).mp hid
      · -- placed: commit and continue on the updated state
        rw [htry] at h
        have h' : phase1Run fuel cfg now rest (applyPlacement state task.id c) ovfAcc =
            some (state1, ovf1) := h
        have htask := hpo task (by simp)
        obtain ⟨htodo, hidtodo, hestmatch⟩ := htask
        obtain ⟨hc2, hnool⟩ := tryScheduleTask_safe fuel state cfg now task c hvalid htry
        have SF := applyPlacement_fields state task.id c
        have hidsP : List.Pairwise (fun a b : Task => a.id ≠ b.id) state :=
          pairwise_ne_id_of_frame hN hF
        have hF' : List.Forall₂ frameEq tasks (applyPlacement state task.id c) :=
          forall2_frameEq_applyPlacement hF hidtodo
        have hQ : List.Pairwise (fun a b : Task =>
            (noOverlapT a b ∧ a.id ≠ b.id) ∧
            (∀ i, placedIval a = some i → ¬ overlaps c i) ∧
            (∀ i, placedIval b = some i → ¬ overlaps c i)) state := by
          refine (hP.and hidsP).imp_of_mem ?_
          intro a b ha hb hab
          exact ⟨hab, fun i hi => hnool a ha i hi, fun i hi => hnool b hb i hi⟩
        have hP' : List.Pairwise noOverlapT (applyPlacement state task.id c) := by
          refine pairwise_of_forall2 SF hQ ?_
          intro a b a' b' hSa hSb hq
          obtain ⟨⟨hno, hne⟩, hsafea, hsafeb⟩ := hq
          rw [noOverlapT_iff]
          intro ia ib hia hib
          by_cases ha : a.id = task.id <;> by_cases hb : b.id = task.id
          · exact absurd (ha.trans hb.symm) hne
          · rw [hSa.2.2.2.2.2 ha, placedIval_update] at hia
            rw [hSb.2.2.2.2.1 hb] at hib
            rw [← Option.some.inj hia]
            intro hov
            exact hsafeb ib hib hov
          · rw [hSb.2.2.2.2.2 hb, placedIval_update] at hib
            rw [hSa.2.2.2.2.1 ha] at hia
            rw [← Option.some.inj hib]
            intro hov
            exact hsafea ia hia ((overlaps_comm ia c).mp hov)
          · rw [hSa.2.2.2.2.1 ha] at hia
            rw [hSb.2.2.2.2.1 hb] at hib
            exact (noOverlapT_iff a b).mp hno ia ib hia hib
        have hW' : AllWellSized (applyPlacement state task.id c) := by
          intro t' ht' htype' s e hs he
          obtain ⟨t, ht, hS⟩ := forall2_mem_right SF t' ht'
          by_cases hid : t.id = task.id
          · have ht'eq := hS.2.2.2.2.2 hid
            subst ht'eq
            have hseq : s = c.1 := (Option.some.inj hs).symm
            have heeq : e = c.2 := (Option.some.inj he).symm
            subst hseq heeq
            show c.2 - c.1 = pyOrInt t.estimate * usPerMinute
            rw [hestmatch t ht hid, hc2]
            ring
          · rw [hS.2.2.2.2.1 hid] at hs he htype' ⊢
            exact hW t ht htype' s e hs he
        have hpo' : ∀ p ∈ rest ++ ovfAcc, p.type = TaskType.TODO ∧
            (∀ t ∈ tasks, t.id = p.id → t.type = TaskType.TODO) ∧
            (∀ t' ∈ applyPlacement state task.id c, t'.id = p.id →
              t'.estimate = p.estimate) := by
          intro p hp
          have horig := hpo p (by
            simp only [List.mem_append, List.mem_cons] at hp ⊢
            tauto)
          refine ⟨horig.1, horig.2.1, ?_⟩
          intro t' ht' hidp
          obtain ⟨t, ht, hS⟩ := forall2_mem_right SF t' ht'
          rw [hS.2.2.1]
          exact horig.2.2 t ht (hS.1 ▸ hidp)
        have hplaced' : ∀ t' ∈ applyPlacement state task.id c, t'.type = TaskType.TODO →
            (∃ i, placedIval t' = some i) ∨ t'.id ∈ (rest ++ ovfAcc).map Task.id := by
          intro t' ht' htype'
          obtain ⟨t, ht, hS⟩ := forall2_mem_right SF t' ht'
          by_cases hid : t.id = task.id
          · refine Or.inl ⟨c, ?_⟩
            rw [hS.2.2.2.2.2 hid]
            exact placedIval_update t c
          · have ht'' : t' = t := hS.2.2.2.2.1 hid
            rcases hplaced t ht (by rw [← ht'']; exact htype') with hpl | hmem
            · exact Or.inl (by rw [ht'']; exact hpl)
            · refine Or.inr ?_
              rw [ht'']
              simp only [List.map_append, List.map_cons, List.mem_append,
                List.mem_cons] at hmem ⊢
              rcases hmem with (heq | h1) | h2
              · exact absurd heq hid
              · exact Or.inl h1
              · exact Or.inr h2
        have hres := ih (applyPlacement state task.id c) ovfAcc state1 ovf1 h'
          hF' hP' hW' hpo' hplaced'
        refine ⟨hres.1, hres.2.1, hres.2.2.1, hres.2.2.2.1, ?_⟩
        intro p hp
        have := hres.2.2.2.2 p hp
        simp only [List.mem_append, List.mem_cons] at this ⊢
        tauto


theorem usPerMinute_pos : (0 : ℤ) < usPerMinute := by norm_num [usPerMinute]

/-- The Phase-2 fold: frame preservation, untouched non-overflow records,
chain placement of overflow records from the pointer onwards, and pairwise
non-overlap of the chain. -/
theorem phase2Run_main (tasks : List Task) :
    ∀ (ovfRest state : List Task) (ptr : ℤ),
      List.Forall₂ frameEq tasks state →
      List.Pairwise (fun a b : Task => a.id ≠ b.id) state →
      (∀ p ∈ ovfRest, (∀ t ∈ tasks, t.id = p.id → t.type = TaskType.TODO) ∧
        (∀ t ∈ state, t.id = p.id → t.estimate = p.estimate) ∧ 0 < pyOrInt p.estimate) →
      List.Pairwise (fun a b : Task => a.id ≠ b.id) ovfRest →
      List.Forall₂ frameEq tasks (phase2Run state ovfRest ptr) ∧
      List.Forall₂ (fun t r => r.id = t.id ∧ r.type = t.type ∧ r.estimate = t.estimate ∧
        (t.id ∉ ovfRest.map Task.id → r = t)) state (phase2Run state ovfRest ptr) ∧
      (∀ r ∈ phase2Run state ovfRest ptr, r.id ∈ ovfRest.map Task.id →
        ∃ i, placedIval r = some i ∧ ptr ≤ i.1 ∧
          i.2 - i.1 = pyOrInt r.estimate * usPerMinute ∧ i.1 < i.2) ∧
      List.Pairwise (fun a b : Task => a.id ∈ ovfRest.map Task.id →
        b.id ∈ ovfRest.map Task.id → noOverlapT a b) (phase2Run state ovfRest ptr) := by
  intro ovfRest
  induction ovfRest with
  | nil =>
    intro state ptr hF hids hovf hnodup
    rw [phase2Run_nil]
    refine ⟨hF, ?_, ?_, ?_⟩
    · rw [List.forall₂_same]
      intro t _
      exact ⟨rfl, rfl, rfl, fun _ => rfl⟩
    · intro r _ habs
      simp at habs
    · refine hids.imp ?_
      intro a b _ ha
      simp at ha
  | cons p rest ih =>
    intro state ptr hF hids hovf hnodup
    rw [phase2Run_cons]
    have hop := hovf p (by simp)
    have hepos : (0 : ℤ) < pyOrInt p.estimate * usPerMinute :=
      mul_pos hop.2.2 usPerMinute_pos
    have SF := applyPlacement_fields state p.id (ptr, ptr + pyOrInt p.estimate * usPerMinute)
    have hF' := forall2_frameEq_applyPlacement
      (c := (ptr, ptr + pyOrInt p.estimate * usPerMinute)) hF hop.1
    have hids' : List.Pairwise (fun a b : Task => a.id ≠ b.id)
        (applyPlacement state p.id (ptr, ptr + pyOrInt p.estimate * usPerMinute)) := by
      refine pairwise_of_forall2 SF hids ?_
      intro a b a' b' hSa hSb hne
      rw [hSa.1, hSb.1]
      exact hne
    have hovf' : ∀ q ∈ rest, (∀ t ∈ tasks, t.id = q.id → t.type = TaskType.TODO) ∧
        (∀ t ∈ applyPlacement state p.id (ptr, ptr + pyOrInt p.estimate * usPerMinute),
          t.id = q.id → t.estimate = q.estimate) ∧
        0 < pyOrInt q.estimate := by
      intro q hq
      have horig := hovf q (List.mem_cons_of_mem _ hq)
      refine ⟨horig.1, ?_, horig.2.2⟩
      intro t' ht' hidq
      obtain ⟨t, ht, hS⟩ := forall2_mem_right SF t' ht'
      rw [hS.2.2.1]
      exact horig.2.1 t ht (hS.1 ▸ hidq)
    have hres := ih
      (applyPlacement state p.id (ptr, ptr + pyOrInt p.estimate * usPerMinute))
      (ptr + pyOrInt p.estimate * usPerMinute) hF' hids' hovf'
      (List.pairwise_cons.mp hnodup).2
    have hpnotrest : p.id ∉ rest.map Task.id := by
      intro hmem
      obtain ⟨b, hb, hbid⟩ := List.mem_map.mp hmem
      exact (List.pairwise_cons.mp hnodup).1 b hb hbid.symm
    have hfactP : ∀ r ∈ phase2Run
        (applyPlacement state p.id (ptr, ptr + pyOrInt p.estimate * usPerMinute)) rest
        (ptr + pyOrInt p.estimate * usPerMinute),
        r.id = p.id →
          placedIval r = some (ptr, ptr + pyOrInt p.estimate * usPerMinute) ∧
          r.estimate = p.estimate := by
      intro r hr hrid
      obtain ⟨m, hm, hS2⟩ := forall2_mem_right hres.2.1 r hr
      have hmid : m.id = p.id := hS2.1.symm.trans hrid
      have hreq : r = m := hS2.2.2.2 (by rw [hmid]; exact hpnotrest)
      obtain ⟨t, ht, hS1⟩ := forall2_mem_right SF m hm
      have htid : t.id = p.id := hS1.1.symm.trans hmid
      have hmupd := hS1.2.2.2.2.2 htid
      refine ⟨?_, ?_⟩
      · rw [hreq, hmupd]
        exact placedIval_update t _
      · rw [hreq, hmupd]
        show t.estimate = p.estimate
        exact hop.2.1 t ht htid
    have hidsF : List.Pairwise (fun a b : Task => a.id ≠ b.id)
        (phase2Run (applyPlacement state p.id
          (ptr, ptr + pyOrInt p.estimate * usPerMinute)) rest
          (ptr + pyOrInt p.estimate * usPerMinute)) := by
      refine pairwise_of_forall2 hres.2.1 hids' ?_
      intro a b a' b' hSa hSb hne
      rw [hSa.1, hSb.1]
      exact hne
    refine ⟨hres.1, ?_, ?_, ?_⟩
    · -- untouched records compose through both folds
      refine forall2_compose ?_ SF hres.2.1
      intro t m r hS1 hS2
      refine ⟨hS2.1.trans hS1.1, hS2.2.1.trans hS1.2.1, hS2.2.2.1.trans hS1.2.2.1, ?_⟩
      intro hnot
      simp only [List.map_cons, List.mem_cons] at hnot
      push_neg at hnot
      have hm : m = t := hS1.2.2.2.2.1 hnot.1
      have hr : r = m := hS2.2.2.2 (by rw [hS1.1]; exact hnot.2)
      exact hr.trans hm
    · intro r hr hrid
      simp only [List.map_cons, List.mem_cons] at hrid
      rcases hrid with hrp | hrr
      · obtain ⟨hpl, hest⟩ := hfactP r hr hrp
        refine ⟨(ptr, ptr + pyOrInt p.estimate * usPerMinute), hpl, le_refl ptr, ?_, ?_⟩
        · show ptr + pyOrInt p.estimate * usPerMinute - ptr = pyOrInt r.estimate * usPerMinute
          rw [hest]
          ring
        · show ptr < ptr + pyOrInt p.estimate * usPerMinute
          omega
      · obtain ⟨i, hi, hge, hsz, hwf⟩ := hres.2.2.1 r hr hrr
        exact ⟨i, hi, by omega, hsz, hwf⟩
    · refine (hres.2.2.2.and hidsF).imp_of_mem ?_
      intro a b ha hb hq hain hbin
      obtain ⟨hIH, hne⟩ := hq
      simp only [List.map_cons, List.mem_cons] at hain hbin
      rcases hain with hap | har <;> rcases hbin with hbp | hbr
      · exact absurd (hap.trans hbp.symm) hne
      · obtain ⟨hpla, _⟩ := hfactP a ha hap
        obtain ⟨⟨ib1, ib2⟩, hib, hgeb, _, _⟩ := hres.2.2.1 b hb hbr
        have hgeb' : ptr + pyOrInt p.estimate * usPerMinute ≤ ib1 := hgeb
        rw [noOverlapT_iff]
        intro ia ib' hia hib'
        rw [hpla] at hia
        rw [hib] at hib'
        obtain rfl : (ptr, ptr + pyOrInt p.estimate * usPerMinute) = ia :=
          Option.some.inj hia
        obtain rfl : (ib1, ib2) = ib' := Option.some.inj hib'
        rw [overlaps_mk]
        intro hov
        have h1 : min (ptr + pyOrInt p.estimate * usPerMinute) ib2 ≤
            ptr + pyOrInt p.estimate * usPerMinute := min_le_left _ _
        have h2 : ib1 ≤ max ptr ib1 := le_max_right _ _
        linarith
      · obtain ⟨hplb, _⟩ := hfactP b hb hbp
        obtain ⟨⟨ia1, ia2⟩, hia', hgea, _, _⟩ := hres.2.2.1 a ha har
        have hgea' : ptr + pyOrInt p.estimate * usPerMinute ≤ ia1 := hgea
        rw [noOverlapT_iff]
        intro ia ib' hia hib'
        rw [hia'] at hia
        rw [hplb] at hib'
        obtain rfl : (ia1, ia2) = ia := Option.some.inj hia
        obtain rfl : (ptr, ptr + pyOrInt p.estimate * usPerMinute) = ib' :=
          Option.some.inj hib'
        rw [overlaps_mk]
        intro hov
        have h1 : min ia2 (ptr + pyOrInt p.estimate * usPerMinute) ≤
            ptr + pyOrInt p.estimate * usPerMinute := min_le_right _ _
        have h2 : ia1 ≤ max ia1 ptr := le_max_left _ _
        linarith
      · exact hIH har hbr


/-! ## Assembly lemmas for the run-level claims -/

theorem placedIval_some_elim {t : Task} {i : Ival} (h : placedIval t = some i) :
    t.start_time = some i.1 ∧ t.end_time = some i.2 := by
  unfold placedIval at h
  rcases h1 : t.start_time with _ | a <;> rcases h2 : t.end_time with _ | b <;>
    rw [h1, h2] at h
  · simp at h
  · simp at h
  · simp at h
  · have hab : (a, b) = i := by simpa using h
    subst hab
    exact ⟨rfl, rfl⟩

theorem placedIval_congr {a b : Task} (h1 : a.start_time = b.start_time)
    (h2 : a.end_time = b.end_time) : placedIval a = placedIval b := by
  unfold placedIval
  rw [h1, h2]

theorem busyClipOf_congr {a b : Task} (d : ℤ) (h1 : a.start_time = b.start_time)
    (h2 : a.end_time = b.end_time) : busyClipOf a d = busyClipOf b d := by
  unfold busyClipOf
  rw [h1, h2]

theorem busyClipOf_wf {t : Task} {d : ℤ} {j : Ival} (hj : busyClipOf t d = some j)
    (hwf : ∀ i, placedIval t = some i → i.1 < i.2) : j.1 < j.2 := by
  obtain ⟨s, e, hs, he, h1, h2, hjeq⟩ := busyClipOf_some hj
  have hpl : placedIval t = some (s, e) := by
    unfold placedIval
    rw [hs, he]
  have hse := hwf (s, e) hpl
  simp only at hse
  rw [hjeq]
  simp only
  unfold day_start day_end usPerDay at *
  omega

theorem eventBusyToday_mem_elim {state1 : List Task} {today : ℤ} {j : Ival}
    (hj : j ∈ eventBusyToday state1 today) :
    ∃ r ∈ state1, r.type = TaskType.EVENT ∧ busyClipOf r today = some j := by
  unfold eventBusyToday at hj
  obtain ⟨r, hr, hcond⟩ := List.mem_filterMap.mp hj
  by_cases ht : r.type = TaskType.EVENT
  · rw [if_pos ht] at hcond
    exact ⟨r, hr, ht, hcond⟩
  · rw [if_neg ht] at hcond
    exact absurd hcond (by simp)

theorem eventBusyToday_mem_intro {state1 : List Task} {today : ℤ} {r : Task} {j : Ival}
    (hr : r ∈ state1) (ht : r.type = TaskType.EVENT) (hj : busyClipOf r today = some j) :
    j ∈ eventBusyToday state1 today := by
  unfold eventBusyToday
  exact List.mem_filterMap.mpr ⟨r, hr, by rw [if_pos ht]; exact hj⟩

theorem merge_intervals_ne_nil {l : List Ival} (h : l ≠ []) : merge_intervals l ≠ [] := by
  unfold merge_intervals
  rcases heq : List.insertionSort startLE l with _ | ⟨x, xs⟩
  · have := List.perm_insertionSort startLE l
    rw [heq] at this
    exact absurd (List.Perm.nil_eq this).symm h
  · exact mergeAux_ne_nil x xs

theorem merged_ends_le_getLast :
    ∀ (l : List Ival) (hl : l ≠ []), List.Chain' sepLT l → (∀ m ∈ l, m.1 < m.2) →
      ∀ m ∈ l, m.2 ≤ (l.getLast hl).2 := by
  intro l
  induction l with
  | nil => intro h; exact absurd rfl h
  | cons a t ihl =>
    intro hl' hc hwf m hm
    cases t with
    | nil =>
      rcases List.mem_cons.mp hm with rfl | hm'
      · exact le_refl _
      · simp at hm'
    | cons b t' =>
      have hne' : b :: t' ≠ [] := by simp
      have hgl : (a :: b :: t').getLast hl' = (b :: t').getLast hne' :=
        List.getLast_cons hne'
      rw [hgl]
      have hb2 : b.2 ≤ ((b :: t').getLast hne').2 :=
        ihl hne' (List.chain'_cons.mp hc).2
          (fun x hx => hwf x (List.mem_cons_of_mem _ hx)) b (List.mem_cons_self _ _)
      rcases List.mem_cons.mp hm with rfl | hm'
      · have hab : m.2 < b.1 := (List.chain'_cons.mp hc).1
        have hbwf : b.1 < b.2 := hwf b (by simp)
        omega
      · exact ihl hne' (List.chain'_cons.mp hc).2
          (fun x hx => hwf x (List.mem_cons_of_mem _ hx)) m hm'

/-- Every well-formed busy interval ends at or before the end of the last
merged interval. -/
theorem mem_le_merged_last (EB : List Ival) (hwf : ∀ j ∈ EB, j.1 < j.2) :
    ∀ j ∈ EB, ∀ m0, (merge_intervals EB).getLast? = some m0 → j.2 ≤ m0.2 := by
  intro j hj m0 hm0
  have hjwf := hwf j hj
  have hmem : memI (j.2 - 1) j := by
    unfold memI
    omega
  obtain ⟨m, hm, hxm⟩ := (merge_intervals_union EB (j.2 - 1)).mpr ⟨j, hj, hmem⟩
  have hj2 : j.2 ≤ m.2 := by
    unfold memI at hxm
    omega
  have hne : merge_intervals EB ≠ [] := by
    intro h
    rw [h] at hm
    simp at hm
  have hlast := merged_ends_le_getLast (merge_intervals EB) hne
    (merge_intervals_chain_sep EB) (merge_intervals_wf EB hwf) m hm
  rw [List.getLast?_eq_getLast _ hne] at hm0
  have hgl : (merge_intervals EB).getLast hne = m0 := Option.some.inj hm0
  have hm02 : ((merge_intervals EB).getLast hne).2 = m0.2 := congrArg Prod.snd hgl
  omega

theorem slot_tasksWithOverflow_eq_empty (fuel : ℕ) (tasks : List Task)
    (cfg : AvailabilityConfig) (weights : List (String × ℚ)) (now : ℤ)
    (h : (tasks.filter fun t => decide (t.type = TaskType.TODO)).isEmpty = true) :
    slot_tasksWithOverflow fuel tasks cfg weights now = some (resetTodos tasks, []) := by
  unfold slot_tasksWithOverflow
  simp only [h, if_true]

theorem phase1Run_ovf_nodup (fuel : ℕ) (cfg : AvailabilityConfig) (now : ℤ) :
    ∀ (pending state ovfAcc state1 ovf1 : List Task),
      phase1Run fuel cfg now pending state ovfAcc = some (state1, ovf1) →
      ((pending ++ ovfAcc).map Task.id).Nodup → (ovf1.map Task.id).Nodup := by
  intro pending
  induction pending with
  | nil =>
    intro state ovfAcc state1 ovf1 h hN
    rw [phase1Run_nil] at h
    obtain rfl : ovfAcc = ovf1 := congrArg Prod.snd (Option.some.inj h)
    simpa using hN
  | cons task rest ih =>
    intro state ovfAcc state1 ovf1 h hN
    rw [phase1Run_cons] at h
    rcases htry : tryScheduleTask fuel state cfg now task with _ | r
    · rw [htry] at h
      simp at h
    · rcases r with _ | c
      · rw [htry] at h
        have h' : phase1Run fuel cfg now rest state (ovfAcc ++ [task]) =
            some (state1, ovf1) := h
        refine ih state (ovfAcc ++ [task]) state1 ovf1 h' ?_
        have hperm : List.Perm ((task :: rest) ++ ovfAcc) (rest ++ (ovfAcc ++ [task])) := by
          rw [List.cons_append, ← List.append_assoc]
          exact (List.perm_append_singleton task (rest ++ ovfAcc)).symm
        exact ((hperm.map Task.id).nodup_iff).mp hN
      · rw [htry] at h
        have h' : phase1Run fuel cfg now rest (applyPlacement state task.id c) ovfAcc =
            some (state1, ovf1) := h
        refine ih (applyPlacement state task.id c) ovfAcc state1 ovf1 h' ?_
        have hsub : ((rest ++ ovfAcc).map Task.id).Sublist
            (((task :: rest) ++ ovfAcc).map Task.id) := by
          refine List.Sublist.map Task.id ?_
          rw [List.cons_append]
          exact List.sublist_cons_self task (rest ++ ovfAcc)
        exact hN.sublist hsub

/-- Frame-only version of the Phase-1 fold, needing no disjointness input. -/
theorem phase1Run_frame (tasks : List Task) (fuel : ℕ) (cfg : AvailabilityConfig)
    (now : ℤ) :
    ∀ (pending state ovfAcc state1 ovf1 : List Task),
      phase1Run fuel cfg now pending state ovfAcc = some (state1, ovf1) →
      List.Forall₂ frameEq tasks state →
      (∀ p ∈ pending, ∀ t ∈ tasks, t.id = p.id → t.type = TaskType.TODO) →
      List.Forall₂ frameEq tasks state1 ∧ (∀ p ∈ ovf1, p ∈ pending ++ ovfAcc) := by
  intro pending
  induction pending with
  | nil =>
    intro state ovfAcc state1 ovf1 h hF _
    rw [phase1Run_nil] at h
    obtain ⟨rfl, rfl⟩ : state = state1 ∧ ovfAcc = ovf1 := by
      have := Option.some.inj h
      exact ⟨congrArg Prod.fst this, congrArg Prod.snd this⟩
    exact ⟨hF, fun p hp => by simpa using hp⟩
  | cons task rest ih =>
    intro state ovfAcc state1 ovf1 h hF hpend
    rw [phase1Run_cons] at h
    rcases htry : tryScheduleTask fuel state cfg now task with _ | r
    · rw [htry] at h
      simp at h
    · rcases r with _ | c
      · rw [htry] at h
        have h' : phase1Run fuel cfg now rest state (ovfAcc ++ [task]) =
            some (state1, ovf1) := h
        obtain ⟨hF1, hprov⟩ := ih state (ovfAcc ++ [task]) state1 ovf1 h' hF
          (fun p hp => hpend p (List.mem_cons_of_mem _ hp))
        refine ⟨hF1, ?_⟩
        intro p hp
        have := hprov p hp
        simp only [List.mem_append, List.mem_cons, List.mem_singleton] at this ⊢
        tauto
      · rw [htry] at h
        have h' : phase1Run fuel cfg now rest (applyPlacement state task.id c) ovfAcc =
            some (state1, ovf1) := h
        obtain ⟨hF1, hprov⟩ := ih (applyPlacement state task.id c) ovfAcc state1 ovf1 h'
          (forall2_frameEq_applyPlacement hF (hpend task (List.mem_cons_self _ _)))
          (fun p hp => hpend p (List.mem_cons_of_mem _ hp))
        refine ⟨hF1, ?_⟩
        intro p hp
        have := hprov p hp
        simp only [List.mem_append, List.mem_cons] at this ⊢
        tauto

/-- Frame-only version of the Phase-2 fold. -/
theorem phase2Run_frame (tasks : List Task) :
    ∀ (ovfRest state : List Task) (ptr : ℤ),
      List.Forall₂ frameEq tasks state →
      (∀ p ∈ ovfRest, ∀ t ∈ tasks, t.id = p.id → t.type = TaskType.TODO) →
      List.Forall₂ frameEq tasks (phase2Run state ovfRest ptr) := by
  intro ovfRest
  induction ovfRest with
  | nil =>
    intro state ptr hF _
    rw [phase2Run_nil]
    exact hF
  | cons p rest ih =>
    intro state ptr hF hovf
    rw [phase2Run_cons]
    exact ih _ _ (forall2_frameEq_applyPlacement hF (hovf p (List.mem_cons_self _ _)))
      (fun q hq => hovf q (List.mem_cons_of_mem _ hq))

/-- Properties of the rank-ordered pending list: every member is a TODO
record of the reset state, mirrors a unique original TODO task, and shares
its estimate with every state record carrying the same id. -/
theorem pending_mem_props (tasks : List Task) (hN : (tasks.map Task.id).Nodup)
    (weights : List (String × ℚ)) (now : ℤ) :
    ∀ p ∈ List.insertionSort (scoreDesc weights now)
        ((resetTodos tasks).filter fun t => decide (t.type = TaskType.TODO)),
      p.type = TaskType.TODO ∧
      p ∈ resetTodos tasks ∧
      (∃ t ∈ tasks, frameEq t p) ∧
      (∀ t ∈ tasks, t.id = p.id → t.type = TaskType.TODO) ∧
      (∀ r ∈ resetTodos tasks, r.id = p.id → r.estimate = p.estimate) := by
  intro p hp
  have hp1 : p ∈ (resetTodos tasks).filter fun t => decide (t.type = TaskType.TODO) :=
    (List.mem_insertionSort _).mp hp
  obtain ⟨hp2, hp3⟩ := List.mem_filter.mp hp1
  have htype : p.type = TaskType.TODO := of_decide_eq_true hp3
  obtain ⟨t, ht, hft⟩ := forall2_mem_right (resetTodos_frame tasks) p hp2
  obtain ⟨f1, f2, f3, f4, f5, f6, f7, f8, f9, f10, f11⟩ := hft
  have httype : t.type = TaskType.TODO := f4.symm.trans htype
  refine ⟨htype, hp2, ⟨t, ht, f1, f2, f3, f4, f5, f6, f7, f8, f9, f10, f11⟩, ?_, ?_⟩
  · intro u hu huid
    have : u = t := eq_of_mem_of_id_eq hN hu ht (huid.trans f1)
    rw [this]
    exact httype
  · intro r hr hrid
    obtain ⟨u, hu, hfu⟩ := forall2_mem_right (resetTodos_frame tasks) r hr
    obtain ⟨g1, _, _, _, _, _, _, _, g9, _, _⟩ := hfu
    have huid : u = t := eq_of_mem_of_id_eq hN hu ht ((g1.symm.trans hrid).trans f1)
    rw [g9, huid, ← f9]

theorem placedIval_reset_todo (t : Task) (h : t.type = TaskType.TODO) :
    placedIval (if t.type = TaskType.TODO then
      { t with scheduled_for := none, start_time := none, end_time := none }
    else t) = none := by
  rw [if_pos h]
  rfl

/-- After the reset, committed intervals are exactly the EVENT intervals, so
the pairwise-disjointness of the input events carries over. -/
theorem state0_placed_disjoint (tasks : List Task)
    (hdisj : List.Pairwise (fun a b : Task => a.type = TaskType.EVENT →
      b.type = TaskType.EVENT → noOverlapT a b) tasks) :
    List.Pairwise noOverlapT (resetTodos tasks) := by
  unfold resetTodos
  rw [List.pairwise_map]
  refine hdisj.imp ?_
  intro a b hab
  show noOverlapT _ _
  by_cases ha : a.type = TaskType.TODO
  · rw [noOverlapT_iff]
    intro ia ib hia _
    rw [placedIval_reset_todo a ha] at hia
    simp at hia
  · by_cases hb : b.type = TaskType.TODO
    · rw [noOverlapT_iff]
      intro ia ib _ hib
      rw [placedIval_reset_todo b hb] at hib
      simp at hib
    · rw [if_neg ha, if_neg hb]
      have ha' : a.type = TaskType.EVENT := by
        rcases h : a.type
        · rfl
        · exact absurd h ha
      have hb' : b.type = TaskType.EVENT := by
        rcases h : b.type
        · rfl
        · exact absurd h hb
      exact hab ha' hb'

theorem state0_well_sized (tasks : List Task) : AllWellSized (resetTodos tasks) := by
  intro t' ht' htype' s e hs he
  unfold resetTodos at ht'
  obtain ⟨t, ht, rfl⟩ := List.mem_map.mp ht'
  by_cases hty : t.type = TaskType.TODO
  · rw [if_pos hty] at hs
    exact absurd hs (by simp)
  · rw [if_neg hty] at htype'
    exact absurd htype' hty


/-- Claim C9: a completed run of slot_tasks writes only the three fields
scheduled_for, start_time and end_time, and only on TODO records: every
other field of every record, every field of every EVENT record, and the
task list itself (length and order: nothing created or deleted) are
unchanged, provided the task ids are distinct. -/
theorem slot_tasks_frame (fuel : ℕ) (tasks : List Task) (cfg : AvailabilityConfig)
    (weights : List (String × ℚ)) (now : ℤ) (res : List Task)
    (hN : (tasks.map Task.id).Nodup)
    (hrun : slot_tasks fuel tasks cfg weights now = some res) :
    List.Forall₂ frameEq tasks res := by
  unfold slot_tasks at hrun
  rcases hwo : slot_tasksWithOverflow fuel tasks cfg weights now with _ | pr
  · rw [hwo] at hrun
    simp at hrun
  · rw [hwo] at hrun
    have hres : pr.1 = res := by simpa using hrun
    subst hres
    rcases hempty : (tasks.filter fun t => decide (t.type = TaskType.TODO)).isEmpty
    · rw [slot_tasksWithOverflow_eq fuel tasks cfg weights now hempty] at hwo
      rcases h1 : phase1Run fuel cfg now
          (List.insertionSort (scoreDesc weights now)
            ((resetTodos tasks).filter fun t => decide (t.type = TaskType.TODO)))
          (resetTodos tasks) [] with _ | s1
      · rw [h1] at hwo
        exact Option.noConfusion hwo
      · rcases s1 with ⟨state1, ovf⟩
        rw [h1] at hwo
        have hwo' : (if ovf.isEmpty = true then some (state1, ([] : List Task))
            else some (phase2Run state1 ovf
              (match (merge_intervals (eventBusyToday state1 (dateOf now))).getLast? with
               | some m => m.2
               | none => now), ovf)) = some pr := hwo
        obtain ⟨F1, hprov⟩ := phase1Run_frame tasks fuel cfg now _ _ _ _ _ h1
          (resetTodos_frame tasks)
          (fun p hp => (pending_mem_props tasks hN weights now p hp).2.2.2.1)
        rcases hovf : ovf.isEmpty
        · simp only [hovf, Bool.false_eq_true, if_false] at hwo'
          obtain rfl := Option.some.inj hwo'
          exact phase2Run_frame tasks ovf state1 _ F1
            (fun p hp => by
              have hp' := hprov p hp
              rw [List.append_nil] at hp'
              exact (pending_mem_props tasks hN weights now p hp').2.2.2.1)
        · rw [if_pos hovf] at hwo'
          obtain rfl := Option.some.inj hwo'
          exact F1
    · rw [slot_tasksWithOverflow_eq_empty fuel tasks cfg weights now hempty] at hwo
      obtain rfl := Option.some.inj hwo
      exact resetTodos_frame tasks

/-- Claim C9 witness: a concrete two-task run (one TODO, one EVENT)
satisfies the frame property; both hypotheses discharged by evaluation. -/
theorem slot_tasks_frame_witness :
    List.Forall₂ frameEq
      [{ id := 1, type := TaskType.TODO, estimate := some 30,
         deadline := some 61200000000 },
       { id := 2, type := TaskType.EVENT, start_time := some 0,
         end_time := some 1800000000 }]
      [{ id := 1, type := TaskType.TODO, estimate := some 30,
         deadline := some 61200000000, start_time := some 32400000000,
         end_time := some 34200000000, scheduled_for := some 0 },
       { id := 2, type := TaskType.EVENT, start_time := some 0,
         end_time := some 1800000000 }] :=
  slot_tasks_frame 3
    [{ id := 1, type := TaskType.TODO, estimate := some 30,
       deadline := some 61200000000 },
     { id := 2, type := TaskType.EVENT, start_time := some 0,
       end_time := some 1800000000 }]
    ⟨fun _ => [(32400000000, 36000000000)]⟩ [] 0
    [{ id := 1, type := TaskType.TODO, estimate := some 30,
       deadline := some 61200000000, start_time := some 32400000000,
       end_time := some 34200000000, scheduled_for := some 0 },
     { id := 2, type := TaskType.EVENT, start_time := some 0,
       end_time := some 1800000000 }]
    (by decide) (by decide)


/-- Claim C6 (counterexample): the blanket no-overlap reading fails twice.
First, two pre-existing EVENT records already overlap, the run completes
untouched (no TODOs), and the committed intervals still overlap: so the
data-model preconditions are needed. Second, even under those
preconditions an overflow placement can overlap a non-overflow record: an
expired-deadline TODO of 1500 minutes is chained from `now` at midnight
and runs across the whole day into a next-day EVENT, so the no-overlap
guarantee cannot bind pairs of which exactly one overflowed. -/
theorem slot_tasks_events_already_overlapping :
    (slot_tasks 1
      [{ id := 1, type := TaskType.EVENT, start_time := some 0,
         end_time := some 100 },
       { id := 2, type := TaskType.EVENT, start_time := some 50,
         end_time := some 150 }] ⟨fun _ => []⟩ [] 0 =
      some
        [{ id := 1, type := TaskType.EVENT, start_time := some 0,
           end_time := some 100 },
         { id := 2, type := TaskType.EVENT, start_time := some 50,
           end_time := some 150 }] ∧
    placedIval { id := 1, type := TaskType.EVENT, start_time := some 0,
                 end_time := some 100 } = some (0, 100) ∧
    placedIval { id := 2, type := TaskType.EVENT, start_time := some 50,
                 end_time := some 150 } = some (50, 150) ∧
    overlaps (0, 100) (50, 150)) ∧
    (slot_tasksWithOverflow 1
      [{ id := 1, type := TaskType.TODO, estimate := some 1500,
         deadline := some 0 },
       { id := 2, type := TaskType.EVENT, start_time := some 86400000000,
         end_time := some 90000000000 }] ⟨fun _ => []⟩ [] 0 =
      some
        ([{ id := 1, type := TaskType.TODO, estimate := some 1500,
            deadline := some 0, start_time := some 0,
            end_time := some 90000000000, scheduled_for := some 0 },
          { id := 2, type := TaskType.EVENT, start_time := some 86400000000,
            end_time := some 90000000000 }],
         [{ id := 1, type := TaskType.TODO, estimate := some 1500,
            deadline := some 0 }]) ∧
    placedIval { id := 1, type := TaskType.TODO, estimate := some 1500,
                 deadline := some 0, start_time := some 0,
                 end_time := some 90000000000, scheduled_for := some 0 } =
      some (0, 90000000000) ∧
    placedIval { id := 2, type := TaskType.EVENT, start_time := some 86400000000,
                 end_time := some 90000000000 } = some (86400000000, 90000000000) ∧
    overlaps (0, 90000000000) (86400000000, 90000000000)) := by
  refine ⟨⟨by decide, rfl, rfl, by decide⟩, by decide, rfl, rfl, by decide⟩

/-- Claim C6 (amended): after a completed run in which the ids are distinct, the
configuration windows are valid, every TODO has a positive estimate, and
the pre-existing EVENT intervals are well-formed and pairwise disjoint:
every TODO record carries concrete times spanning exactly its estimate in
minutes; two committed intervals never overlap unless exactly one of the
two records overflowed; and no overflow placement overlaps any EVENT busy
interval of the current date. -/
theorem slot_tasks_no_overlap (fuel : ℕ) (tasks : List Task) (cfg : AvailabilityConfig)
    (weights : List (String × ℚ)) (now : ℤ) (res ovf : List Task)
    (hN : (tasks.map Task.id).Nodup)
    (hvalid : ValidConfig cfg)
    (hest : ∀ t ∈ tasks, t.type = TaskType.TODO → 0 < pyOrInt t.estimate)
    (hevwf : ∀ t ∈ tasks, t.type = TaskType.EVENT → ∀ i, placedIval t = some i → i.1 < i.2)
    (hevdisj : List.Pairwise (fun a b : Task => a.type = TaskType.EVENT →
      b.type = TaskType.EVENT → noOverlapT a b) tasks)
    (hrun : slot_tasksWithOverflow fuel tasks cfg weights now = some (res, ovf)) :
    (∀ t ∈ res, t.type = TaskType.TODO → ∃ s e, t.start_time = some s ∧
      t.end_time = some e ∧ e - s = pyOrInt t.estimate * usPerMinute) ∧
    List.Pairwise (fun a b : Task =>
      (a.id ∈ ovf.map Task.id ↔ b.id ∈ ovf.map Task.id) → noOverlapT a b) res ∧
    (∀ a ∈ res, a.id ∈ ovf.map Task.id → ∀ ia, placedIval a = some ia →
      ∀ ev ∈ tasks, ev.type = TaskType.EVENT → ∀ j, busyClipOf ev (dateOf now) = some j →
        ¬ overlaps ia j) := by
  rcases hempty : (tasks.filter fun t => decide (t.type = TaskType.TODO)).isEmpty
  · rw [slot_tasksWithOverflow_eq fuel tasks cfg weights now hempty] at hrun
    rcases h1 : phase1Run fuel cfg now
        (List.insertionSort (scoreDesc weights now)
          ((resetTodos tasks).filter fun t => decide (t.type = TaskType.TODO)))
        (resetTodos tasks) [] with _ | s1
    · rw [h1] at hrun
      exact Option.noConfusion hrun
    rcases s1 with ⟨state1, ovf1⟩
    rw [h1] at hrun
    have hrun' : (if ovf1.isEmpty = true then some (state1, ([] : List Task))
        else some (phase2Run state1 ovf1
          (match (merge_intervals (eventBusyToday state1 (dateOf now))).getLast? with
           | some m => m.2
           | none => now), ovf1)) = some (res, ovf) := hrun
    have hpp := pending_mem_props tasks hN weights now
    obtain ⟨hF1, hP1, hW1, hplaced1, hprov⟩ :=
      phase1Run_main tasks cfg now fuel hN hvalid _ _ _ _ _ h1
        (resetTodos_frame tasks) (state0_placed_disjoint tasks hevdisj)
        (state0_well_sized tasks)
        (by
          intro p hp
          rw [List.append_nil] at hp
          obtain ⟨h1', _, _, h4', h5'⟩ := hpp p hp
          exact ⟨h1', h4', h5'⟩)
        (by
          intro t ht htype
          right
          rw [List.append_nil]
          refine List.mem_map_of_mem Task.id ?_
          exact (List.mem_insertionSort _).mpr
            (List.mem_filter.mpr ⟨ht, decide_eq_true htype⟩))
    rcases hovf1 : ovf1.isEmpty
    · simp only [hovf1, Bool.false_eq_true, if_false] at hrun'
      have hpair := Option.some.inj hrun'
      obtain ⟨rfl, rfl⟩ : phase2Run state1 ovf1
          (match (merge_intervals (eventBusyToday state1 (dateOf now))).getLast? with
           | some m => m.2
           | none => now) = res ∧ ovf1 = ovf :=
        ⟨congrArg Prod.fst hpair, congrArg Prod.snd hpair⟩
      have hovfmem : ∀ p ∈ ovf1, p ∈ List.insertionSort (scoreDesc weights now)
          ((resetTodos tasks).filter fun t => decide (t.type = TaskType.TODO)) := by
        intro p hp
        have := hprov p hp
        rwa [List.append_nil] at this
      have hovfprops : ∀ p ∈ ovf1,
          (∀ t ∈ tasks, t.id = p.id → t.type = TaskType.TODO) ∧
          (∀ t ∈ state1, t.id = p.id → t.estimate = p.estimate) ∧
          0 < pyOrInt p.estimate := by
        intro p hp
        obtain ⟨htodo, _, ⟨torig, htorig, hftp⟩, hperid, _⟩ := hpp p (hovfmem p hp)
        obtain ⟨f1, _, _, f4, _, _, _, _, f9, _, _⟩ := hftp
        have httodo : torig.type = TaskType.TODO := f4.symm.trans htodo
        refine ⟨hperid, ?_, ?_⟩
        · intro t ht htid
          obtain ⟨uorig, hu, hfu⟩ := forall2_mem_right hF1 t ht
          obtain ⟨g1, _, _, _, _, _, _, _, g9, _, _⟩ := hfu
          have : uorig = torig :=
            eq_of_mem_of_id_eq hN hu htorig ((g1.symm.trans htid).trans f1)
          rw [g9, this, ← f9]
        · have := hest torig htorig httodo
          rwa [← f9] at this
      have hovfN : List.Pairwise (fun a b : Task => a.id ≠ b.id) ovf1 := by
        refine List.pairwise_map.mp (phase1Run_ovf_nodup fuel cfg now _ _ _ _ _ h1 ?_)
        rw [List.append_nil]
        have hperm : List.Perm (List.insertionSort (scoreDesc weights now)
            ((resetTodos tasks).filter fun t => decide (t.type = TaskType.TODO)))
            ((resetTodos tasks).filter fun t => decide (t.type = TaskType.TODO)) :=
          List.perm_insertionSort _ _
        refine ((hperm.map Task.id).nodup_iff).mpr ?_
        have hsub : (((resetTodos tasks).filter fun t =>
            decide (t.type = TaskType.TODO)).map Task.id).Sublist
            ((resetTodos tasks).map Task.id) :=
          List.Sublist.map Task.id (List.filter_sublist _)
        refine hsub.nodup ?_
        rw [forall2_frameEq_map_id (resetTodos_frame tasks)]
        exact hN
      obtain ⟨hF2, hS2, hchain, hchainpair⟩ :=
        phase2Run_main tasks ovf1 state1
          (match (merge_intervals (eventBusyToday state1 (dateOf now))).getLast? with
           | some m => m.2
           | none => now)
          hF1 (pairwise_ne_id_of_frame hN hF1) hovfprops hovfN
      refine ⟨?_, ?_, ?_⟩
      · intro t ht htype
        by_cases hid : t.id ∈ ovf1.map Task.id
        · obtain ⟨i, hpl, _, hsz, _⟩ := hchain t ht hid
          obtain ⟨hs, he⟩ := placedIval_some_elim hpl
          exact ⟨i.1, i.2, hs, he, hsz⟩
        · obtain ⟨m, hm, hrel⟩ := forall2_mem_right hS2 t ht
          have hmid : m.id ∉ ovf1.map Task.id := by
            rw [← hrel.1]
            exact hid
          have htm : t = m := hrel.2.2.2 hmid
          subst htm
          rcases hplaced1 t hm htype with ⟨i, hi⟩ | habs
          · obtain ⟨hs, he⟩ := placedIval_some_elim hi
            exact ⟨i.1, i.2, hs, he, hW1 t hm htype i.1 i.2 hs he⟩
          · exact absurd habs hid
      · have huntouched : List.Pairwise (fun a b : Task =>
            a.id ∉ ovf1.map Task.id → b.id ∉ ovf1.map Task.id → noOverlapT a b)
            (phase2Run state1 ovf1
              (match (merge_intervals (eventBusyToday state1 (dateOf now))).getLast? with
               | some m => m.2
               | none => now)) := by
          refine pairwise_of_forall2 hS2 hP1 ?_
          intro a b a' b' hSa hSb hQ ha' hb'
          have h1' : a' = a := hSa.2.2.2 (by rw [← hSa.1]; exact ha')
          have h2' : b' = b := hSb.2.2.2 (by rw [← hSb.1]; exact hb')
          rw [h1', h2']
          exact hQ
        refine (huntouched.and hchainpair).imp ?_
        intro a b hab hiff
        by_cases hid : a.id ∈ ovf1.map Task.id
        · exact hab.2 hid (hiff.mp hid)
        · exact hab.1 hid (fun hb => hid (hiff.mpr hb))
      · intro a ha hid ia hpl ev hev hevt j hclip
        obtain ⟨i, hpl', hge, _, _⟩ := hchain a ha hid
        have hia : ia = i := Option.some.inj (hpl.symm.trans hpl')
        rw [hia]
        obtain ⟨r, hr, hfr⟩ := forall2_mem_left hF1 ev hev
        obtain ⟨_, _, _, r4, _, _, _, _, _, _, r11⟩ := hfr
        have hrtype : r.type = TaskType.EVENT := r4.trans hevt
        obtain ⟨rs, re, _⟩ := r11 hevt
        have hclipr : busyClipOf r (dateOf now) = some j :=
          (busyClipOf_congr (dateOf now) rs re).trans hclip
        have hjEB : j ∈ eventBusyToday state1 (dateOf now) :=
          eventBusyToday_mem_intro hr hrtype hclipr
        have hEBwf : ∀ j' ∈ eventBusyToday state1 (dateOf now), j'.1 < j'.2 := by
          intro j' hj'
          obtain ⟨r', hr', hrt', hclip'⟩ := eventBusyToday_mem_elim hj'
          obtain ⟨ev', hev', hfev'⟩ := forall2_mem_right hF1 r' hr'
          obtain ⟨_, _, _, e4, _, _, _, _, _, _, e11⟩ := hfev'
          have hevt' : ev'.type = TaskType.EVENT := e4.symm.trans hrt'
          obtain ⟨es, ee, _⟩ := e11 hevt'
          have hclip'' : busyClipOf ev' (dateOf now) = some j' :=
            (busyClipOf_congr (dateOf now) es.symm ee.symm).trans hclip'
          exact busyClipOf_wf hclip'' (hevwf ev' hev' hevt')
        rcases hlast : (merge_intervals (eventBusyToday state1 (dateOf now))).getLast?
          with _ | m0
        · rw [List.getLast?_eq_none_iff] at hlast
          exact absurd hlast
            (merge_intervals_ne_nil (List.ne_nil_of_mem hjEB))
        · have hge' : m0.2 ≤ i.1 := by
            rw [hlast] at hge
            exact hge
          have hjle : j.2 ≤ m0.2 :=
            mem_le_merged_last _ hEBwf j hjEB m0 hlast
          intro hov
          unfold overlaps at hov
          omega
    · rw [if_pos hovf1] at hrun'
      have hpair := Option.some.inj hrun'
      obtain ⟨rfl, rfl⟩ : state1 = res ∧ ([] : List Task) = ovf :=
        ⟨congrArg Prod.fst hpair, congrArg Prod.snd hpair⟩
      have hovfnil : ovf1 = [] := List.isEmpty_iff.mp hovf1
      refine ⟨?_, ?_, ?_⟩
      · intro t ht htype
        rcases hplaced1 t ht htype with ⟨i, hi⟩ | habs
        · obtain ⟨hs, he⟩ := placedIval_some_elim hi
          exact ⟨i.1, i.2, hs, he, hW1 t ht htype i.1 i.2 hs he⟩
        · rw [hovfnil] at habs
          simp at habs
      · refine hP1.imp ?_
        intro a b hab _
        exact hab
      · intro a _ hid
        simp at hid
  · rw [slot_tasksWithOverflow_eq_empty fuel tasks cfg weights now hempty] at hrun
    have hpair := Option.some.inj hrun
    obtain ⟨rfl, rfl⟩ : resetTodos tasks = res ∧ ([] : List Task) = ovf :=
      ⟨congrArg Prod.fst hpair, congrArg Prod.snd hpair⟩
    have hnoTodo : ∀ a ∈ tasks, ¬ a.type = TaskType.TODO := by
      have hnil : tasks.filter (fun t => decide (t.type = TaskType.TODO)) = [] :=
        List.isEmpty_iff.mp hempty
      rw [List.filter_eq_nil_iff] at hnil
      intro a ha hty
      exact absurd (decide_eq_true hty) (hnil a ha)
    refine ⟨?_, ?_, ?_⟩
    · intro t ht htype
      obtain ⟨orig, horig, hf⟩ := forall2_mem_right (resetTodos_frame tasks) t ht
      obtain ⟨_, _, _, f4, _, _, _, _, _, _, _⟩ := hf
      exact absurd (f4.symm.trans htype) (hnoTodo orig horig)
    · refine (state0_placed_disjoint tasks hevdisj).imp ?_
      intro a b hab _
      exact hab
    · intro a _ hid
      simp at hid


/-- Claim C6 (amended) witness: a concrete completed run (one TODO, one
EVENT) satisfies the amended no-overlap property; all hypotheses discharged on this input. -/
theorem slot_tasks_no_overlap_witness :
    (∀ t ∈ ([{ id := 1, type := TaskType.TODO, estimate := some 30,
               deadline := some 61200000000, start_time := some 32400000000,
               end_time := some 34200000000, scheduled_for := some 0 },
             { id := 2, type := TaskType.EVENT, start_time := some 0,
               end_time := some 1800000000 }] : List Task),
      t.type = TaskType.TODO → ∃ s e, t.start_time = some s ∧
        t.end_time = some e ∧ e - s = pyOrInt t.estimate * usPerMinute) ∧
    List.Pairwise (fun a b : Task =>
      (a.id ∈ ([] : List Task).map Task.id ↔ b.id ∈ ([] : List Task).map Task.id) →
        noOverlapT a b)
      ([{ id := 1, type := TaskType.TODO, estimate := some 30,
          deadline := some 61200000000, start_time := some 32400000000,
          end_time := some 34200000000, scheduled_for := some 0 },
        { id := 2, type := TaskType.EVENT, start_time := some 0,
          end_time := some 1800000000 }] : List Task) ∧
    (∀ a ∈ ([{ id := 1, type := TaskType.TODO, estimate := some 30,
               deadline := some 61200000000, start_time := some 32400000000,
               end_time := some 34200000000, scheduled_for := some 0 },
             { id := 2, type := TaskType.EVENT, start_time := some 0,
               end_time := some 1800000000 }] : List Task),
      a.id ∈ ([] : List Task).map Task.id → ∀ ia, placedIval a = some ia →
        ∀ ev ∈ ([{ id := 1, type := TaskType.TODO, estimate := some 30,
                   deadline := some 61200000000 },
                 { id := 2, type := TaskType.EVENT, start_time := some 0,
                   end_time := some 1800000000 }] : List Task),
          ev.type = TaskType.EVENT → ∀ j, busyClipOf ev (dateOf 0) = some j →
            ¬ overlaps ia j) :=
  slot_tasks_no_overlap 3
    [{ id := 1, type := TaskType.TODO, estimate := some 30,
       deadline := some 61200000000 },
     { id := 2, type := TaskType.EVENT, start_time := some 0,
       end_time := some 1800000000 }]
    ⟨fun _ => [(32400000000, 36000000000)]⟩ [] 0
    [{ id := 1, type := TaskType.TODO, estimate := some 30,
       deadline := some 61200000000, start_time := some 32400000000,
       end_time := some 34200000000, scheduled_for := some 0 },
     { id := 2, type := TaskType.EVENT, start_time := some 0,
       end_time := some 1800000000 }]
    []
    (by decide)
    (by
      intro wd p hp
      have hp' : p ∈ [((32400000000 : ℤ), (36000000000 : ℤ))] := hp
      rw [List.mem_singleton] at hp'
      subst hp'
      refine ⟨by norm_num, by norm_num, by norm_num [usPerDay]⟩)
    (by decide)
    (by
      intro t ht htype i hi
      rcases List.mem_cons.mp ht with rfl | ht'
      · exact absurd htype (by decide)
      · rcases List.mem_cons.mp ht' with rfl | h''
        · have hi' : some (((0 : ℤ), (1800000000 : ℤ))) = some i := hi
          have := Option.some.inj hi'
          rw [← this]
          decide
        · simp at h'')
    (by decide)
    (by decide)

end Scheduler
